import Mathlib

/-!
Shallow embedding of the process manager and scheduler of CTRLxT OS
(src/kernel/process/process_manager.c and src/kernel/process/scheduler.c).

Modelling conventions:
* C linked lists become Lean `List`s; in-place mutation through a pointer to
  the first matching node becomes `updateFirst`/`eraseFirst` on the list.
* C `double` probabilities become exact rationals, represented by the
  executable fraction type `Frac` (integer numerator and denominator, kept
  unnormalized so that every operation reduces in the kernel; `Frac.toRat`
  gives the value as a `ℚ`).  The single value drawn from `rand()/RAND_MAX`
  in a call is passed in as a parameter `q : Frac`.
* The memory collaborator (`mm_alloc_virtual`, `mm_free_virtual`, ...) is out
  of scope per the spec; allocation is modelled as always succeeding (all the
  claims under study assume every allocation succeeds), and frees have no
  effect on the registry.  The hardware capability gate
  (`hal_ops->has_quantum_support()`) is passed in as a boolean parameter.
* Machine integers (`uint32_t`/`uint64_t` counters, ids) become `Nat`;
  subtraction of counters is Nat subtraction (no claim depends on wraparound).
* The simulated clock `get_timestamp_ns()` is passed in as a parameter `now`.
-/

namespace Ctrlxt

/-- Generic helper: update the first element satisfying `p` (models C code
that scans a linked list and mutates the found node through its pointer). -/
def updateFirst (p : α → Bool) (f : α → α) : List α → List α
  | [] => []
  | x :: xs => if p x then f x :: xs else x :: updateFirst p f xs

/-- Generic helper: remove the first element satisfying `p` (models unlinking
the found node from a C linked list). -/
def eraseFirst (p : α → Bool) : List α → List α
  | [] => []
  | x :: xs => if p x then xs else x :: eraseFirst p xs

/-- Generic helper: apply `f` to the element at index `i` (models writing to
a fixed C array slot). -/
def setAt (f : α → α) : List α → Nat → List α
  | [], _ => []
  | x :: xs, 0 => f x :: xs
  | x :: xs, i + 1 => x :: setAt f xs i

/-- Exact rational arithmetic for the C `double` probabilities: a fraction
with integer numerator and denominator.  Fractions are never normalized (so
all operations are plain integer arithmetic and reduce in the kernel); every
fraction the embedding builds has a positive denominator.  `Frac.toRat` maps
a fraction to its value in `ℚ`. -/
structure Frac where
  num : Int
  den : Int
  deriving DecidableEq

/-- The value 0.0. -/
def Frac.zero : Frac := ⟨0, 1⟩

/-- The value 1.0. -/
def Frac.one : Frac := ⟨1, 1⟩

/-- The value 0.5. -/
def Frac.half : Frac := ⟨1, 2⟩

/-- Fraction addition. -/
def Frac.add (a b : Frac) : Frac := ⟨a.num * b.den + b.num * a.den, a.den * b.den⟩

/-- Fraction subtraction. -/
def Frac.sub (a b : Frac) : Frac := ⟨a.num * b.den - b.num * a.den, a.den * b.den⟩

/-- Fraction multiplication. -/
def Frac.mul (a b : Frac) : Frac := ⟨a.num * b.num, a.den * b.den⟩

/-- Fraction division (the embedding only divides by values guarded to be
positive, so the resulting denominator stays positive). -/
def Frac.div (a b : Frac) : Frac := ⟨a.num * b.den, a.den * b.num⟩

/-- Comparison `a ≤ b`, by cross multiplication; correct whenever both
denominators are positive, which holds for every fraction the embedding
builds. -/
def Frac.ble (a b : Frac) : Bool := decide (a.num * b.den ≤ b.num * a.den)

/-- The exact rational value of a fraction. -/
def Frac.toRat (a : Frac) : ℚ := (a.num : ℚ) / (a.den : ℚ)

/-- Thread lifecycle states (`ThreadState` in process_manager.h). -/
inductive ThreadSt
  | created | running | ready | blocked | suspended | terminated | quantum
  deriving DecidableEq

/-- Process lifecycle states (`ProcessState` in process_manager.h). -/
inductive ProcessSt
  | created | running | ready | blocked | suspended | terminated | quantum
  deriving DecidableEq

/-- PRIORITY_QUEUE_COUNT = PRIORITY_QUANTUM + 1 = 7 (scheduler.c). -/
def PRIORITY_QUEUE_COUNT : Nat := 7

/-- PRIORITY_NORMAL = 2 (process_manager.h). -/
def PRIORITY_NORMAL : Nat := 2

/-- MAX_SUPERPOSITIONS = 32 (scheduler.c). -/
def MAX_SUPERPOSITIONS : Nat := 32

/-- MAX_THREADS_PER_PROCESS = 64 (process_manager.h). -/
def MAX_THREADS_PER_PROCESS : Nat := 64

/-- MAX_PROCESSES = 1024 (process_manager.h). -/
def MAX_PROCESSES : Nat := 1024

/-- MAX_PROCESS_ENTANGLEMENTS = 128 (process_manager.c). -/
def MAX_PROCESS_ENTANGLEMENTS : Nat := 128

/-- Thread record (struct Thread); the context record and stack handle are
opaque to every claim under study, so only the scheduler-visible fields are
carried.  `priority` is the raw stored machine integer: out-of-range values
are representable, exactly as in the C struct. -/
structure Thread where
  id : Nat
  process_id : Nat
  state : ThreadSt
  priority : Nat
  execution_time : Nat
  deriving DecidableEq

/-- Process entanglement kinds (`ProcessEntanglementType`). -/
inductive EntanglementType
  | entangle_none | entangle_memory | entangle_state | entangle_execution | entangle_resonance
  deriving DecidableEq

/-- Process entanglement record (struct ProcessEntanglement). -/
structure ProcessEntanglement where
  id : Nat
  first_process : Nat
  second_process : Nat
  etype : EntanglementType
  resonance_level : Nat
  stability : Frac
  is_synchronized : Bool
  deriving DecidableEq

/-- The zeroed entanglement slot (memset 0); id = 0 marks a free slot. -/
def emptyEntanglement : ProcessEntanglement :=
  { id := 0, first_process := 0, second_process := 0,
    etype := .entangle_none, resonance_level := 0,
    stability := Frac.zero, is_synchronized := false }

/-- Process record (struct Process).  `threads` models the doubly linked
thread list (head insertion order preserved); `thread_count` is the separate
counter field maintained by the C code. -/
structure Process where
  id : Nat
  name : String
  state : ProcessSt
  priority : Nat
  threads : List Thread
  thread_count : Nat
  entanglement_id : Nat
  exit_code : Nat
  resonance_level : Nat
  deriving DecidableEq

/-- Process statistics (struct ProcessStats). -/
structure ProcessStats where
  total_processes : Nat
  running_processes : Nat
  blocked_processes : Nat
  quantum_processes : Nat
  total_threads : Nat
  total_entanglements : Nat
  total_context_switches : Nat
  total_quantum_ops : Nat
  deriving DecidableEq

/-- The zeroed statistics record. -/
def emptyStats : ProcessStats :=
  { total_processes := 0, running_processes := 0, blocked_processes := 0,
    quantum_processes := 0, total_threads := 0, total_entanglements := 0,
    total_context_switches := 0, total_quantum_ops := 0 }

/-- Whole process-manager state: the static globals of process_manager.c. -/
structure PMState where
  initialized : Bool
  max_processes : Nat
  stats : ProcessStats
  processes : List Process
  next_process_id : Nat
  next_thread_id : Nat
  entanglements : List ProcessEntanglement
  deriving DecidableEq

/-- find_process: linear scan of the process list. -/
def find_process (ps : List Process) (pid : Nat) : Option Process :=
  ps.find? (fun p => p.id == pid)

/-- find_thread: scan every process, then its thread list, first match. -/
def find_thread : List Process → Nat → Option Thread
  | [], _ => none
  | p :: ps, tid =>
    match p.threads.find? (fun th => th.id == tid) with
    | some th => some th
    | none => find_thread ps tid

/-- Mutate, in the registry, the thread a C `Thread*` obtained by `find_thread`
points at: the first matching thread of the first process containing it. -/
def setThread (ps : List Process) (tid : Nat) (f : Thread → Thread) : List Process :=
  updateFirst (fun p => p.threads.any (fun th => th.id == tid))
    (fun p => { p with threads := updateFirst (fun th => th.id == tid) f p.threads }) ps

/-- Mutate the process a C `Process*` obtained by `find_process` points at. -/
def setProcess (ps : List Process) (pid : Nat) (f : Process → Process) : List Process :=
  updateFirst (fun p => p.id == pid) f ps

/-- update_process_state: adjust the running/blocked/quantum statistics for a
state change, store the new state, and if the new state is Terminated also
mark every owned thread Terminated. -/
def update_process_state (s : ProcessStats) (p : Process) (ns : ProcessSt) :
    ProcessStats × Process :=
  let s1 :=
    if p.state = .running ∧ ns ≠ .running then { s with running_processes := s.running_processes - 1 }
    else if p.state ≠ .running ∧ ns = .running then { s with running_processes := s.running_processes + 1 }
    else s
  let s2 :=
    if p.state = .blocked ∧ ns ≠ .blocked then { s1 with blocked_processes := s1.blocked_processes - 1 }
    else if p.state ≠ .blocked ∧ ns = .blocked then { s1 with blocked_processes := s1.blocked_processes + 1 }
    else s1
  let s3 :=
    if p.state = .quantum ∧ ns ≠ .quantum then { s2 with quantum_processes := s2.quantum_processes - 1 }
    else if p.state ≠ .quantum ∧ ns = .quantum then { s2 with quantum_processes := s2.quantum_processes + 1 }
    else s2
  let thr := if ns = .terminated
    then p.threads.map (fun th => { th with state := .terminated })
    else p.threads
  (s3, { p with state := ns, threads := thr })

/-- pm_init: fresh process-manager state (the C path that has not been
initialized before). -/
def pm_init (max_processes : Nat) : PMState :=
  { initialized := true
    max_processes := if max_processes > 0 then max_processes else MAX_PROCESSES
    stats := emptyStats
    processes := []
    next_process_id := 1
    next_thread_id := 1
    entanglements := List.replicate MAX_PROCESS_ENTANGLEMENTS emptyEntanglement }

/-- add_process: head insertion into the process list plus statistics. -/
def add_process (st : PMState) (p : Process) : PMState :=
  let s := { st.stats with total_processes := st.stats.total_processes + 1 }
  let s :=
    if p.state = .running then { s with running_processes := s.running_processes + 1 }
    else if p.state = .blocked then { s with blocked_processes := s.blocked_processes + 1 }
    else if p.state = .quantum then { s with quantum_processes := s.quantum_processes + 1 }
    else s
  { st with processes := p :: st.processes, stats := s }

/-- remove_process: unlink from the process list plus statistics. -/
def remove_process (st : PMState) (p : Process) : PMState :=
  let s := { st.stats with total_processes := st.stats.total_processes - 1 }
  let s :=
    if p.state = .running then { s with running_processes := s.running_processes - 1 }
    else if p.state = .blocked then { s with blocked_processes := s.blocked_processes - 1 }
    else if p.state = .quantum then { s with quantum_processes := s.quantum_processes - 1 }
    else s
  { st with processes := eraseFirst (fun x => x.id == p.id) st.processes, stats := s }

/-- pm_create_thread: validates the owning process, the per-process thread
ceiling, allocates a stack (`stack_ok` is the collaborator's answer; the
thread-struct malloc is modelled as succeeding), links the thread at the head
of the process's thread list.  Returns the new thread id on success. -/
def pm_create_thread (st : PMState) (process_id : Nat) (priority : Nat)
    (stack_ok : Bool) : Option Nat × PMState :=
  if ¬ st.initialized then (none, st) else
  match find_process st.processes process_id with
  | none => (none, st)
  | some p =>
    if p.state = .terminated then (none, st) else
    if p.thread_count ≥ MAX_THREADS_PER_PROCESS then (none, st) else
    let tid := st.next_thread_id
    let st1 := { st with next_thread_id := st.next_thread_id + 1 }
    if ¬ stack_ok then (none, st1) else
    let th : Thread :=
      { id := tid, process_id := process_id, state := .created,
        priority := priority, execution_time := 0 }
    let st2 :=
      { st1 with
        processes := setProcess st1.processes process_id
          (fun pr => { pr with threads := th :: pr.threads,
                               thread_count := pr.thread_count + 1 })
        stats := { st1.stats with total_threads := st1.stats.total_threads + 1 } }
    (some tid, st2)

/-- Parameters of pm_create_process that the embedding needs. -/
structure ProcessParams where
  name : String
  priority : Nat
  resonance_level : Nat
  deriving DecidableEq

/-- pm_create_process: checks capacity, builds the process record, allocates
its address space (`mem_ok`), then creates the main thread via
`pm_create_thread` (stack allocation answer `stack_ok`) and only afterwards
adds the process to the registry with `add_process` — the order the C code
uses. -/
def pm_create_process (st : PMState) (params : ProcessParams)
    (mem_ok stack_ok : Bool) : Option Nat × PMState :=
  if ¬ st.initialized then (none, st) else
  if st.stats.total_processes ≥ st.max_processes then (none, st) else
  let p : Process :=
    { id := st.next_process_id, name := params.name, state := .created,
      priority := params.priority, threads := [], thread_count := 0,
      entanglement_id := 0, exit_code := 0,
      resonance_level := params.resonance_level }
  let st1 := { st with next_process_id := st.next_process_id + 1 }
  if ¬ mem_ok then (none, st1) else
  match pm_create_thread st1 p.id params.priority stack_ok with
  | (none, st2) => (none, st2)
  | (some _, st2) => (some p.id, add_process st2 p)

/-- One member's side of breaking an entanglement: clear the member's pairing
id and, for state/execution pairings, restore the member to Ready (with the
statistics update of update_process_state). -/
def break_clear_member (ety : EntanglementType) (st : PMState) (pid : Nat) : PMState :=
  match find_process st.processes pid with
  | none => st
  | some p =>
    let p1 := { p with entanglement_id := 0 }
    if ety = .entangle_state ∨ ety = .entangle_execution then
      let r := update_process_state st.stats p1 .ready
      { st with stats := r.1, processes := setProcess st.processes pid (fun _ => r.2) }
    else
      { st with processes := setProcess st.processes pid (fun _ => p1) }

/-- pm_break_process_entanglement: clears both members' pairing, restores
state/execution-paired members to Ready, zeroes the slot.  The memory
collaborator calls of the ENTANGLE_MEMORY branch do not touch the registry. -/
def pm_break_process_entanglement (st : PMState) (eid : Nat) : Bool × PMState :=
  if ¬ st.initialized then (false, st) else
  match st.entanglements.find? (fun e => e.id == eid) with
  | none => (false, st)
  | some ent =>
    let st1 := break_clear_member ent.etype st ent.first_process
    let st2 := break_clear_member ent.etype st1 ent.second_process
    let st3 :=
      { st2 with
        entanglements := updateFirst (fun e => e.id == eid) (fun _ => emptyEntanglement) st2.entanglements
        stats := { st2.stats with
                    total_entanglements := st2.stats.total_entanglements - 1,
                    total_quantum_ops := st2.stats.total_quantum_ops + 1 } }
    (true, st3)

/-- Tail of pm_terminate_process once the process is found (and any pairing
already broken): mark the process and its threads Terminated (with the
statistics update), store the exit code, free every thread, remove the
process from the registry. -/
def terminate_free_all (st1 : PMState) (pid : Nat) (p1 : Process) (exit_code : Nat) : PMState :=
  let r := update_process_state st1.stats p1 .terminated
  let p3 := { r.2 with exit_code := exit_code }
  let freedCount := p3.threads.length
  let p4 := { p3 with threads := [], thread_count := p3.thread_count - freedCount }
  let st2 :=
    { st1 with
      stats := { r.1 with total_threads := r.1.total_threads - freedCount }
      processes := setProcess st1.processes pid (fun _ => p4) }
  remove_process st2 p4

/-- The emptied, Terminated copy of the process that `terminate_free_all`
installs and then unlinks (named so proofs can speak about it). -/
def termP4 (st1 : PMState) (p1 : Process) (exit_code : Nat) : Process :=
  let r := update_process_state st1.stats p1 .terminated
  let p3 := { r.2 with exit_code := exit_code }
  { p3 with threads := [], thread_count := p3.thread_count - p3.threads.length }

/-- pm_terminate_process: idempotent on Terminated processes; breaks the
pairing first if one is held, marks the process and all its threads
Terminated, stores the exit code, frees every thread, removes the process. -/
def pm_terminate_process (st : PMState) (pid : Nat) (exit_code : Nat) : Bool × PMState :=
  if ¬ st.initialized then (false, st) else
  match find_process st.processes pid with
  | none => (false, st)
  | some p =>
    if p.state = .terminated then (true, st) else
    let st1 := if p.entanglement_id ≠ 0
      then (pm_break_process_entanglement st p.entanglement_id).2
      else st
    match find_process st1.processes pid with
    | none => (false, st1)
    | some p1 => (true, terminate_free_all st1 pid p1 exit_code)

/-- pm_terminate_thread: marks the thread Terminated; if every other thread of
its process is already Terminated, delegates to `pm_terminate_process`,
otherwise unlinks and frees just this thread. -/
def pm_terminate_thread (st : PMState) (tid : Nat) (exit_code : Nat) : Bool × PMState :=
  if ¬ st.initialized then (false, st) else
  match find_thread st.processes tid with
  | none => (false, st)
  | some th =>
    match find_process st.processes th.process_id with
    | none => (false, st)
    | some p =>
      if th.state = .terminated then (true, st) else
      let st1 := { st with processes := setThread st.processes tid (fun t => { t with state := .terminated }) }
      let all_terminated := p.threads.all (fun t => t.id == tid || t.state == ThreadSt.terminated)
      if all_terminated then
        (true, (pm_terminate_process st1 p.id exit_code).2)
      else
        let st2 :=
          { st1 with
            processes := setProcess st1.processes p.id
              (fun pr => { pr with threads := eraseFirst (fun t => t.id == tid) pr.threads,
                                   thread_count := pr.thread_count - 1 })
            stats := { st1.stats with total_threads := st1.stats.total_threads - 1 } }
        (true, st2)

/-- pm_get_process. -/
def pm_get_process (st : PMState) (pid : Nat) : Option Process :=
  if ¬ st.initialized then none else find_process st.processes pid

/-- pm_get_thread. -/
def pm_get_thread (st : PMState) (tid : Nat) : Option Thread :=
  if ¬ st.initialized then none else find_thread st.processes tid

/-- pm_set_thread_priority: stores any priority value without range
validation. -/
def pm_set_thread_priority (st : PMState) (tid : Nat) (priority : Nat) : Bool × PMState :=
  if ¬ st.initialized then (false, st) else
  match find_thread st.processes tid with
  | none => (false, st)
  | some _ =>
    (true, { st with processes := setThread st.processes tid (fun t => { t with priority := priority }) })

/-! Scheduler (scheduler.c). -/

/-- Scheduler types (SchedulerType in scheduler.h). -/
inductive SchedulerType
  | round_robin | priority_sched | multilevel_feedback | realtime | quantum
  deriving DecidableEq

/-- Ready-queue entry (struct SchedulerQueueEntry). -/
structure QEntry where
  process_id : Nat
  thread_id : Nat
  priority : Nat
  quantum_probability : Frac
  deriving DecidableEq

/-- Superposition slot (struct SuperpositionState); thread_id = 0 marks a
free slot. -/
structure SupSlot where
  thread_id : Nat
  probability : Frac
  resonance_level : Nat
  deriving DecidableEq

/-- The zeroed superposition slot. -/
def emptySlot : SupSlot := { thread_id := 0, probability := Frac.zero, resonance_level := 0 }

/-- Scheduler globals of scheduler.c: the SchedulerState struct plus the
`scheduler_initialized`/`scheduler_running` flags, the ready-queue array and
the superposition-slot array. -/
structure SchedState where
  initialized : Bool
  running : Bool
  stype : SchedulerType
  current_process : Nat
  current_thread : Nat
  time_slice : Nat
  last_context_switch : Nat
  total_context_switches : Nat
  superposition_count : Nat
  preemption_enabled : Bool
  resonance_level : Nat
  queues : List (List QEntry)
  superpositions : List SupSlot
  deriving DecidableEq

/-- Combined kernel state: the process-manager globals plus the scheduler
globals (scheduler.c reads and mutates the registry through pm_*). -/
structure KState where
  pm : PMState
  sched : SchedState
  deriving DecidableEq

/-- scheduler_init: fresh scheduler state (the not-yet-initialized path). -/
def scheduler_init (stype : SchedulerType) (time_slice : Nat) (preemption_enabled : Bool) :
    SchedState :=
  { initialized := true
    running := false
    stype := stype
    current_process := 0
    current_thread := 0
    time_slice := if time_slice > 0 then time_slice else 10000000
    last_context_switch := 0
    total_context_switches := 0
    superposition_count := 0
    preemption_enabled := preemption_enabled
    resonance_level := 0
    queues := List.replicate PRIORITY_QUEUE_COUNT []
    superpositions := List.replicate MAX_SUPERPOSITIONS emptySlot }

/-- add_to_queue: clamps an out-of-range priority to PRIORITY_NORMAL, looks
the thread up (fails if it does not exist), copies the execution weight from
any superposition slot holding the thread (default 1), and appends the entry
at the tail of the chosen level's queue.  The entry malloc is modelled as
succeeding. -/
def add_to_queue (pm : PMState) (sups : List SupSlot) (queues : List (List QEntry))
    (tid : Nat) (priority : Nat) : Bool × List (List QEntry) :=
  let priority := if priority ≥ PRIORITY_QUEUE_COUNT then PRIORITY_NORMAL else priority
  match pm_get_thread pm tid with
  | none => (false, queues)
  | some th =>
    let w := match sups.find? (fun s => s.thread_id == tid) with
      | some s => s.probability
      | none => Frac.one
    let e : QEntry :=
      { process_id := th.process_id, thread_id := tid,
        priority := priority, quantum_probability := w }
    (true, queues.set priority (queues.getD priority [] ++ [e]))

/-- remove_from_queues: scan the levels from 0 upwards; in the first queue
holding the thread remove that (first) entry and stop. -/
def remove_from_queues (queues : List (List QEntry)) (tid : Nat) :
    Bool × List (List QEntry) :=
  match queues with
  | [] => (false, [])
  | ql :: rest =>
    if ql.any (fun e => e.thread_id == tid) then
      (true, eraseFirst (fun e => e.thread_id == tid) ql :: rest)
    else
      let (found, rest2) := remove_from_queues rest tid
      (found, ql :: rest2)

/-- The descending level scan order used by every selection policy:
PRIORITY_QUEUE_COUNT - 1 down to 0. -/
def levelsDesc : List Nat := (List.range PRIORITY_QUEUE_COUNT).reverse

/-- Round-robin branch of get_next_thread: at the first non-empty level (from
the highest), pop the head, re-add the same thread at the tail of the same
level via add_to_queue (result ignored), return its id. -/
def rr_scan (pm : PMState) (sups : List SupSlot) (queues : List (List QEntry)) :
    List Nat → Nat × List (List QEntry)
  | [] => (0, queues)
  | i :: is =>
    match queues.getD i [] with
    | [] => rr_scan pm sups queues is
    | e :: rest =>
      let next_thread := e.thread_id
      let qs1 := queues.set i rest
      (next_thread, (add_to_queue pm sups qs1 next_thread i).2)

/-- Real-time branch of get_next_thread: return the head thread id of the
first non-empty level, leaving the queues untouched. -/
def rt_scan (queues : List (List QEntry)) : List Nat → Nat
  | [] => 0
  | i :: is =>
    match queues.getD i [] with
    | [] => rt_scan queues is
    | e :: _ => e.thread_id

/-- The candidate weight of a ready-queue entry sitting at level `i` under
the probabilistic policy: execution weight times (level+1)/number of levels
(`entry->quantum_probability * (i + 1) / PRIORITY_QUEUE_COUNT`). -/
def qweight (e : QEntry) (i : Nat) : Frac :=
  (e.quantum_probability.mul ⟨(i : Int) + 1, 1⟩).div ⟨(PRIORITY_QUEUE_COUNT : Int), 1⟩

/-- Quantum branch, candidate collection from one level's queue: an entry is
appended (weight = entry weight * (level+1)/PRIORITY_QUEUE_COUNT) when fewer
than MAX_SUPERPOSITIONS*2 candidates are collected so far and its thread is
not already a candidate; once the cap is reached the remaining entries of the
level are skipped. -/
def quantum_entries_scan (i : Nat) : List QEntry → List (Nat × Frac) → List (Nat × Frac)
  | [], cands => cands
  | e :: es, cands =>
    if cands.length < MAX_SUPERPOSITIONS * 2 then
      if cands.any (fun c => c.1 == e.thread_id) then
        quantum_entries_scan i es cands
      else
        quantum_entries_scan i es (cands ++ [(e.thread_id, qweight e i)])
    else cands

/-- Quantum branch, candidate collection over all levels from highest to
lowest. -/
def quantum_queue_scan (queues : List (List QEntry)) :
    List Nat → List (Nat × Frac) → List (Nat × Frac)
  | [], cands => cands
  | i :: is, cands =>
    quantum_queue_scan queues is (quantum_entries_scan i (queues.getD i []) cands)

/-- Quantum branch, the superposition candidates: every occupied slot in slot
order, with its survival probability as weight. -/
def sup_candidates (sups : List SupSlot) : List (Nat × Frac) :=
  (sups.filter (fun s => s.thread_id ≠ 0)).map (fun s => (s.thread_id, s.probability))

/-- Quantum branch, cumulative selection walk over the already-normalized
weights: return the first candidate whose cumulative weight reaches the
sample. -/
def select_walk (q : Frac) : List (Nat × Frac) → Frac → Option Nat
  | [], _ => none
  | c :: cs, acc =>
    let acc2 := acc.add c.2
    if q.ble acc2 then some c.1 else select_walk q cs acc2

/-- Quantum branch of get_next_thread: collect candidates (superpositions
first, then queue threads not already counted, capped at
MAX_SUPERPOSITIONS*2), return 0 when there are no candidates or the total
weight is not positive, otherwise normalize and walk the cumulative
distribution with the drawn sample `q`; candidates[0] is the fallback when
the walk falls through. -/
def quantum_select (sups : List SupSlot) (queues : List (List QEntry)) (q : Frac) : Nat :=
  let cands := quantum_queue_scan queues levelsDesc (sup_candidates sups)
  let total := cands.foldl (fun acc c => acc.add c.2) Frac.zero
  if cands.length = 0 ∨ total.ble Frac.zero then 0
  else
    let normalized := cands.map (fun c => (c.1, c.2.div total))
    match select_walk q normalized Frac.zero with
    | some t => t
    | none => ((cands.getD 0 (0, Frac.zero)).1)

/-- get_next_thread: dispatch on the configured scheduler type.  The
round-robin, priority and multilevel-feedback cases share one branch (the C
switch falls through); the multilevel-feedback special case in that branch is
an empty comment block.  Only the round-robin branch mutates the queues; the
drawn sample `q` is consumed only by the quantum branch. -/
def get_next_thread (k : KState) (q : Frac) : Nat × KState :=
  match k.sched.stype with
  | .round_robin | .priority_sched | .multilevel_feedback =>
    let (t, qs) := rr_scan k.pm k.sched.superpositions k.sched.queues levelsDesc
    (t, { k with sched := { k.sched with queues := qs } })
  | .realtime => (rt_scan k.sched.queues levelsDesc, k)
  | .quantum => (quantum_select k.sched.superpositions k.sched.queues q, k)

/-- scheduler_context_switch.  `now` is the current value of the simulated
clock, `q` the random sample consumed when the quantum policy selects, and
`fuel` bounds the "thread or process disappeared, try again" recursion of the
C code (which is not structurally decreasing); fuel exhaustion yields the
untouched state.  The guard paths — not running, or not forced with the time
slice not yet expired — return false without touching anything. -/
def scheduler_context_switch (now : Nat) (q : Frac) :
    Nat → Bool → KState → Bool × KState
  | 0, _, k => (false, k)
  | fuel + 1, force, k =>
    if ¬ (k.sched.initialized ∧ k.sched.running) then (false, k) else
    let elapsed := now - k.sched.last_context_switch
    if ¬ force ∧ elapsed < k.sched.time_slice then (false, k) else
    let k1 :=
      if k.sched.current_thread ≠ 0 then
        match pm_get_thread k.pm k.sched.current_thread with
        | some cur =>
          let pmA := { k.pm with processes := (setThread k.pm.processes cur.id
              (fun t => { t with execution_time := t.execution_time + elapsed })) }
          if cur.state = .running then
            let pmB := { pmA with processes := (setThread pmA.processes cur.id
                (fun t => { t with state := .ready })) }
            let (_, qs) := add_to_queue pmB k.sched.superpositions k.sched.queues
                k.sched.current_thread cur.priority
            { pm := pmB, sched := { k.sched with queues := qs } }
          else { k with pm := pmA }
        | none => k
      else k
    let (next, k2) := get_next_thread k1 q
    if next = 0 then
      let sd := { k2.sched with
                  current_process := 0, current_thread := 0,
                  last_context_switch := now }
      (true, { k2 with sched := sd })
    else
      match pm_get_thread k2.pm next with
      | none => scheduler_context_switch now q fuel true k2
      | some nt =>
        match pm_get_process k2.pm nt.process_id with
        | none => scheduler_context_switch now q fuel true k2
        | some pr =>
          let pm3 := { k2.pm with processes := (setThread k2.pm.processes next
              (fun t => { t with state := .running })) }
          let pm4 :=
            if pr.state ≠ .running then
              { pm3 with processes := (setProcess pm3.processes pr.id
                  (fun p => { p with state := .running })) }
            else pm3
          (true, { pm := pm4,
                   sched := { k2.sched with
                              current_process := nt.process_id,
                              current_thread := next,
                              last_context_switch := now,
                              total_context_switches := k2.sched.total_context_switches + 1 } })

/-- scheduler_add_thread: requires an initialized scheduler and an existing
thread; removes any queue entry the thread already has, moves a non-Running
thread to Ready, then enqueues at the thread's stored priority. -/
def scheduler_add_thread (k : KState) (tid : Nat) : Bool × KState :=
  if ¬ k.sched.initialized then (false, k) else
  match pm_get_thread k.pm tid with
  | none => (false, k)
  | some th =>
    let (_, qs1) := remove_from_queues k.sched.queues tid
    let pm1 :=
      if th.state ≠ .running then
        { k.pm with processes := (setThread k.pm.processes tid (fun t => { t with state := .ready })) }
      else k.pm
    let (ok, qs2) := add_to_queue pm1 k.sched.superpositions qs1 tid th.priority
    (ok, { pm := pm1, sched := { k.sched with queues := qs2 } })

/-- scheduler_remove_thread. -/
def scheduler_remove_thread (k : KState) (tid : Nat) : Bool × KState :=
  if ¬ k.sched.initialized then (false, k) else
  let (found, qs) := remove_from_queues k.sched.queues tid
  (found, { k with sched := { k.sched with queues := qs } })

/-- scheduler_unblock_thread: moves the thread to Ready and enqueues it with
`add_to_queue` WITHOUT removing any entry it may already hold; may then force
a context switch when preemption is enabled and the unblocked thread's
priority exceeds the current thread's. -/
def scheduler_unblock_thread (now : Nat) (q : Frac) (fuel : Nat) (k : KState) (tid : Nat) :
    Bool × KState :=
  if ¬ k.sched.initialized then (false, k) else
  match pm_get_thread k.pm tid with
  | none => (false, k)
  | some th =>
    let pm1 := { k.pm with processes := (setThread k.pm.processes tid
        (fun t => { t with state := .ready })) }
    let (result, qs) := add_to_queue pm1 k.sched.superpositions k.sched.queues tid th.priority
    let k1 : KState := { pm := pm1, sched := { k.sched with queues := qs } }
    let k2 :=
      if result ∧ k.sched.running ∧ k.sched.preemption_enabled then
        match pm_get_thread pm1 k.sched.current_thread with
        | some cur => if cur.priority < th.priority
            then (scheduler_context_switch now q fuel true k1).2
            else k1
        | none => k1
      else k1
    (result, k2)

/-- scheduler_create_superposition: gated on the hardware capability query
`hal_quantum` and on the thread existing; takes the first slot that is either
free or already holds this thread, fills it with probability 1/2, moves the
thread to the Quantum state, increments the superposition counter, and sets
the weight of the thread's entry (the first match in each level) to 1/2. -/
def scheduler_create_superposition (hal_quantum : Bool) (k : KState)
    (tid : Nat) (resonance_level : Nat) : Bool × KState :=
  if ¬ k.sched.initialized then (false, k) else
  if ¬ hal_quantum then (false, k) else
  match pm_get_thread k.pm tid with
  | none => (false, k)
  | some _ =>
    match k.sched.superpositions.findIdx? (fun s => s.thread_id == 0 || s.thread_id == tid) with
    | none => (false, k)
    | some slot_index =>
      let sups1 := k.sched.superpositions.set slot_index
        { thread_id := tid, probability := Frac.half, resonance_level := resonance_level }
      let pm1 := { k.pm with processes := (setThread k.pm.processes tid
          (fun t => { t with state := .quantum })) }
      let qs1 := k.sched.queues.map
        (updateFirst (fun e => e.thread_id == tid)
          (fun e => { e with quantum_probability := Frac.half }))
      let sd := { k.sched with
                  superpositions := sups1,
                  superposition_count := k.sched.superposition_count + 1,
                  queues := qs1 }
      (true, { pm := pm1, sched := sd })

/-- Collapse helper: scan the levels from 0 upwards; in the first queue
holding the thread restore that (first) entry's weight to 1 and stop,
reporting whether any entry was found. -/
def restore_entry_prob (tid : Nat) : List (List QEntry) → Bool × List (List QEntry)
  | [] => (false, [])
  | ql :: rest =>
    if ql.any (fun e => e.thread_id == tid) then
      (true, updateFirst (fun e => e.thread_id == tid)
        (fun e => { e with quantum_probability := Frac.one }) ql :: rest)
    else
      let (found, rest2) := restore_entry_prob tid rest
      (found, ql :: rest2)

/-- scheduler_collapse_superposition: finds the thread's slot (first match);
if the thread no longer exists the slot is simply cleared.  Otherwise applies
the bias (ignored when outside [0,1]), declares survival iff the drawn sample
`q` is at most the biased probability; a survivor returns to Ready and keeps
or regains a queue entry, a non-survivor is terminated via
pm_terminate_thread.  The slot is cleared and the counter decremented in
either outcome. -/
def scheduler_collapse_superposition (k : KState) (tid : Nat) (probability_bias q : Frac) :
    Bool × KState :=
  if ¬ k.sched.initialized then (false, k) else
  match k.sched.superpositions.findIdx? (fun s => s.thread_id == tid) with
  | none => (false, k)
  | some slot_index =>
    let clearSlot (sd : SchedState) : SchedState :=
      { sd with
        superpositions := setAt (fun s => { s with thread_id := 0 }) sd.superpositions slot_index,
        superposition_count := sd.superposition_count - 1 }
    match pm_get_thread k.pm tid with
    | none => (true, { k with sched := clearSlot k.sched })
    | some th =>
      let p := ((k.sched.superpositions.getD slot_index emptySlot)).probability
      let collapse_probability :=
        if Frac.zero.ble probability_bias ∧ probability_bias.ble Frac.one then
          (p.mul probability_bias).add ((Frac.one.sub p).mul (Frac.one.sub probability_bias))
        else p
      let survives := q.ble collapse_probability
      if survives then
        let pm1 := { k.pm with processes := (setThread k.pm.processes tid
            (fun t => { t with state := .ready })) }
        let (in_queue, qs1) := restore_entry_prob tid k.sched.queues
        let qs2 := if in_queue then qs1
          else (add_to_queue pm1 k.sched.superpositions qs1 tid th.priority).2
        (true, { pm := pm1, sched := clearSlot { k.sched with queues := qs2 } })
      else
        let (_, pm1) := pm_terminate_thread k.pm tid 0
        (true, { pm := pm1, sched := clearSlot k.sched })

/-! Derived observations and spec-side reference definitions. -/

/-- Number of ready-queue entries carrying the given thread id, across all
priority levels. -/
def queueCount (queues : List (List QEntry)) (tid : Nat) : Nat :=
  (queues.map (fun ql => (ql.filter (fun e => e.thread_id == tid)).length)).sum

/-- Queue single-membership: every thread id occurs in at most one ready-queue
entry across all priority queues. -/
def SingleMembership (queues : List (List QEntry)) : Prop :=
  ∀ tid, queueCount queues tid ≤ 1

/-- Number of registry threads carrying the given thread id, across all
processes. -/
def threadsWithId (ps : List Process) (tid : Nat) : Nat :=
  (ps.map (fun p => (p.threads.filter (fun t => t.id == tid)).length)).sum

/-- Number of occupied superposition slots (thread id not the 0 sentinel). -/
def occupiedSlots (sups : List SupSlot) : Nat :=
  (sups.filter (fun s => s.thread_id ≠ 0)).length

/-- Number of registry threads carrying the given id that are not
Terminated. -/
def liveWithId (ps : List Process) (tid : Nat) : Nat :=
  (ps.map (fun p =>
    (p.threads.filter (fun t => t.id == tid && !(t.state == ThreadSt.terminated))).length)).sum

/-- The id-and-thread-id skeleton of one process: everything the registry
lookups `find_process` and `find_thread` scan by. -/
def procShape (pr : Process) : Nat × List Nat :=
  (pr.id, pr.threads.map (fun t => t.id))

/-- The skeleton of the whole registry. -/
def regShape (ps : List Process) : List (Nat × List Nat) :=
  ps.map procShape

/-- Replace the configured scheduler type, leaving everything else alone. -/
def setSchedulerType (k : KState) (t : SchedulerType) : KState :=
  { k with sched := { k.sched with stype := t } }

/-- Spec-side description of the real-time selection (spec 4.3): the head
thread of the first non-empty queue, scanning levels from highest to lowest;
none (0) when all queues are empty. -/
def rt_head_spec (queues : List (List QEntry)) : Nat :=
  match ((levelsDesc.map (fun i => queues.getD i [])).find?
      (fun ql => !ql.isEmpty)).bind (fun ql => ql.head?) with
  | some e => e.thread_id
  | none => 0

/-- All (level, entry) pairs of the ready queues in selection scan order:
levels from highest to lowest, each level front to back. -/
def level_entry_pairs (queues : List (List QEntry)) : List (Nat × QEntry) :=
  (levelsDesc.map (fun i => (queues.getD i []).map (fun e => (i, e)))).flatten

/-- The weighted queue candidates in scan order, before removing threads
already listed. -/
def spec_queue_weighted (queues : List (List QEntry)) : List (Nat × Frac) :=
  (level_entry_pairs queues).map (fun pe => (pe.2.thread_id, qweight pe.2 pe.1))

/-- Keep the first occurrence of each thread id, dropping any candidate whose
id was already seen. -/
def keepFirsts : List (Nat × Frac) → List Nat → List (Nat × Frac)
  | [], _ => []
  | c :: cs, seen =>
    if seen.any (fun y => y == c.1) then keepFirsts cs seen
    else c :: keepFirsts cs (c.1 :: seen)

/-- The candidate list exactly as the claim describes it: every occupied
superposition slot's thread with its survival probability as weight, followed
by every ready-queue thread not already listed, scanned from highest to
lowest level. -/
def spec_cands_uncapped (sups : List SupSlot) (queues : List (List QEntry)) :
    List (Nat × Frac) :=
  let sc := sup_candidates sups
  sc ++ keepFirsts (spec_queue_weighted queues) (sc.map (fun c => c.1))

/-- The candidate list the code actually builds: as above, but queue
candidates stop being collected once the fixed candidate array
(MAX_SUPERPOSITIONS * 2 slots) is full. -/
def spec_cands_capped (sups : List SupSlot) (queues : List (List QEntry)) :
    List (Nat × Frac) :=
  let sc := sup_candidates sups
  sc ++ (keepFirsts (spec_queue_weighted queues) (sc.map (fun c => c.1))).take
      (MAX_SUPERPOSITIONS * 2 - sc.length)

/-- The running cumulative sums of a weight list, starting from `acc`. -/
def cumWeights : List Frac → Frac → List Frac
  | [], _ => []
  | w :: ws, acc => (acc.add w) :: cumWeights ws (acc.add w)

/-- Spec-side inverse-CDF step: the first candidate, in order, whose
cumulative weight reaches the sample. -/
def spec_select (cands : List (Nat × Frac)) (q : Frac) : Option Nat :=
  ((cands.zip (cumWeights (cands.map (fun c => c.2)) Frac.zero)).find?
    (fun cw => q.ble cw.2)).map (fun cw => cw.1.1)

/-- The probabilistic selection exactly as the claim states it: candidates
without any cap, normalize, inverse-CDF; 0 when the candidate set is empty. -/
def spec_quantum_select_uncapped (sups : List SupSlot) (queues : List (List QEntry))
    (q : Frac) : Nat :=
  let cands := spec_cands_uncapped sups queues
  if cands = [] then 0
  else
    let total := cands.foldl (fun acc c => acc.add c.2) Frac.zero
    match spec_select (cands.map (fun c => (c.1, c.2.div total))) q with
    | some t => t
    | none => (cands.getD 0 (0, Frac.zero)).1

/-- The probabilistic selection as the code behaves: candidate collection
capped at MAX_SUPERPOSITIONS * 2 entries, and 0 is also returned when the
total candidate weight is not positive. -/
def spec_quantum_select_capped (sups : List SupSlot) (queues : List (List QEntry))
    (q : Frac) : Nat :=
  let cands := spec_cands_capped sups queues
  let total := cands.foldl (fun acc c => acc.add c.2) Frac.zero
  if cands = [] ∨ total.ble Frac.zero then 0
  else
    match spec_select (cands.map (fun c => (c.1, c.2.div total))) q with
    | some t => t
    | none => (cands.getD 0 (0, Frac.zero)).1

/-! Concrete states used by witnesses and counterexamples. -/

/-- A ready thread with id 1 in process 1 at Normal priority. -/
def thA : Thread :=
  { id := 1, process_id := 1, state := .ready, priority := 2, execution_time := 0 }

/-- A registered process owning exactly the thread `thA`. -/
def prA : Process :=
  { id := 1, name := "P", state := .ready, priority := 2, threads := [thA],
    thread_count := 1, entanglement_id := 0, exit_code := 0, resonance_level := 0 }

/-- An initialized registry holding just `prA`. -/
def pmA : PMState :=
  { initialized := true, max_processes := 16, stats := { emptyStats with total_processes := 1, total_threads := 1 },
    processes := [prA], next_process_id := 2, next_thread_id := 2,
    entanglements := List.replicate MAX_PROCESS_ENTANGLEMENTS emptyEntanglement }

/-- A ready-queue entry for thread 1 at Normal priority with full weight. -/
def eA : QEntry :=
  { process_id := 1, thread_id := 1, priority := 2, quantum_probability := Frac.one }

/-- A freshly initialized round-robin scheduler. -/
def schedBase : SchedState := scheduler_init .round_robin 0 false

/-- Scheduler state with thread 1 queued at Normal priority. -/
def schedQueued : SchedState :=
  { schedBase with queues := [[], [], [eA], [], [], [], []] }

/-- Kernel state for the duplicate-enqueue counterexample: thread 1 exists
and is already queued. -/
def kQueued : KState := { pm := pmA, sched := schedQueued }

/-- A superposition slot holding thread 1 with stored probability 0. -/
def slotP0 : SupSlot := { thread_id := 1, probability := Frac.zero, resonance_level := 0 }

/-- A superposition slot holding thread 1 with stored probability 1/2. -/
def slotHalf : SupSlot := { thread_id := 1, probability := Frac.half, resonance_level := 0 }

/-- Kernel state whose superposition pool holds thread 1 at probability 0. -/
def kSlotZero : KState :=
  { pm := pmA,
    sched := { schedBase with
               superpositions := slotP0 :: List.replicate 31 emptySlot,
               superposition_count := 1 } }

/-- Kernel state whose superposition pool holds thread 1 at probability 1/2. -/
def kSlotHalf : KState :=
  { pm := pmA,
    sched := { schedBase with
               superpositions := slotHalf :: List.replicate 31 emptySlot,
               superposition_count := 1 } }

/-- A superposition slot holding thread 1 with stored probability 1. -/
def slotOne : SupSlot := { thread_id := 1, probability := Frac.one, resonance_level := 0 }

/-- Kernel state whose superposition pool holds thread 1 at probability 1. -/
def kSlotOne : KState :=
  { pm := pmA,
    sched := { schedBase with
               superpositions := slotOne :: List.replicate 31 emptySlot,
               superposition_count := 1 } }

/-- Kernel state under the real-time policy with thread 1 queued. -/
def kRealtime : KState :=
  { pm := pmA, sched := { scheduler_init .realtime 0 false with queues := [[], [], [eA], [], [], [], []] } }

/-- A thread whose stored priority value 9 is outside the 0..6 queue range. -/
def thB : Thread :=
  { id := 1, process_id := 1, state := .ready, priority := 9, execution_time := 0 }

/-- The registry holding the out-of-range-priority thread. -/
def pmB : PMState := { pmA with processes := [{ prA with threads := [thB] }] }

/-- Kernel state for the out-of-range-priority witness. -/
def kOutOfRange : KState := { pm := pmB, sched := schedBase }

/-- The all-free superposition pool. -/
def supsEmpty : List SupSlot := List.replicate MAX_SUPERPOSITIONS emptySlot

/-- Sixty-five distinct full-weight threads queued at the highest level: one
more than the selection code's candidate array can hold. -/
def bigQueues : List (List QEntry) :=
  [[], [], [], [], [], [],
   (List.range 65).map (fun n =>
     { process_id := 1, thread_id := n + 1, priority := 6, quantum_probability := Frac.one })]

/-- Process creation parameters of the spec scenario (name "P", Normal
priority). -/
def paramsP : ProcessParams := { name := "P", priority := 2, resonance_level := 0 }

/-! Theorems. -/

/-- C1: the claim states that with capacity available and all allocations
succeeding, `pm_create_process` succeeds with a non-zero id and one main
thread.  The code cannot: it calls `pm_create_thread` before `add_process`
registers the new process, and `pm_create_thread` fails to find the
not-yet-registered process.  On a freshly initialized registry with room for
16 processes and every allocation succeeding, creation fails and the registry
stays empty. -/
theorem C1_create_process_always_fails :
    (pm_init 16).stats.total_processes < (pm_init 16).max_processes ∧
    (pm_create_process (pm_init 16) paramsP true true).1 = none ∧
    (pm_create_process (pm_init 16) paramsP true true).2.processes = [] := by
  refine ⟨by decide, by decide, by decide⟩

/-- C7: the claim states the superposition counter always equals the number
of occupied slots and that re-targeting an existing slot leaves it unchanged.
In a state where thread 1 already holds slot 0 (counter 1, one occupied
slot), `scheduler_create_superposition` on thread 1 succeeds, reuses the
slot, yet increments the counter to 2 while the occupied-slot count stays
1. -/
theorem C7_superposition_count_drifts :
    kSlotHalf.sched.superposition_count = 1 ∧
    occupiedSlots kSlotHalf.sched.superpositions = 1 ∧
    (scheduler_create_superposition true kSlotHalf 1 3).1 = true ∧
    (scheduler_create_superposition true kSlotHalf 1 3).2.sched.superposition_count = 2 ∧
    occupiedSlots (scheduler_create_superposition true kSlotHalf 1 3).2.sched.superpositions = 1 := by
  refine ⟨by decide, by decide, by decide, by decide, by decide⟩

/-- C9: `scheduler_context_switch(force)` returns false and leaves the whole
kernel state (scheduler state, ready queues, superposition slots, process
registry) unchanged whenever the scheduler is not running, and also whenever
`force` is false and the elapsed time since the last context switch is below
the configured time slice. -/
theorem C9_context_switch_noop (now : Nat) (q : Frac) (fuel : Nat) (force : Bool) (k : KState)
    (h : k.sched.running = false ∨
      (force = false ∧ now - k.sched.last_context_switch < k.sched.time_slice)) :
    scheduler_context_switch now q fuel force k = (false, k) := by
  cases fuel with
  | zero => rfl
  | succ n =>
    rcases h with h | ⟨hf, ht⟩
    · simp [scheduler_context_switch, h]
    · by_cases hr : k.sched.initialized = true ∧ k.sched.running = true
      · simp [scheduler_context_switch, hr, hf, ht]
      · simp [scheduler_context_switch, hr]

/-- Witness for C9 at a concrete state: the scheduler of `kQueued` is
initialized but not running, so a forced switch is refused and nothing
changes. -/
theorem C9_context_switch_noop_witness :
    scheduler_context_switch 5 Frac.zero 3 true kQueued = (false, kQueued) :=
  C9_context_switch_noop 5 Frac.zero 3 true kQueued (Or.inl (by decide))

/-- C8: for every kernel state and random sample, selection under the
multilevel-feedback policy returns the same thread id and produces the same
ready queues, superposition slots and process registry as selection under
round-robin. -/
theorem C8_multilevel_feedback_eq_round_robin (k : KState) (q : Frac) :
    (get_next_thread (setSchedulerType k .multilevel_feedback) q).1 =
      (get_next_thread (setSchedulerType k .round_robin) q).1 ∧
    (get_next_thread (setSchedulerType k .multilevel_feedback) q).2.sched.queues =
      (get_next_thread (setSchedulerType k .round_robin) q).2.sched.queues ∧
    (get_next_thread (setSchedulerType k .multilevel_feedback) q).2.sched.superpositions =
      (get_next_thread (setSchedulerType k .round_robin) q).2.sched.superpositions ∧
    (get_next_thread (setSchedulerType k .multilevel_feedback) q).2.pm =
      (get_next_thread (setSchedulerType k .round_robin) q).2.pm :=
  ⟨rfl, rfl, rfl, rfl⟩

/-- Correspondence of the real-time scan with its head-of-first-non-empty-
queue description, for an arbitrary scan order. -/
theorem rt_scan_eq_spec (queues : List (List QEntry)) (levels : List Nat) :
    rt_scan queues levels =
      (match ((levels.map (fun i => queues.getD i [])).find?
          (fun ql => !ql.isEmpty)).bind (fun ql => ql.head?) with
        | some e => e.thread_id
        | none => 0) := by
  induction levels with
  | nil => rfl
  | cons i is ih =>
    simp only [rt_scan, List.map_cons, List.find?_cons, List.getD]
    cases h : queues[i]?.getD [] with
    | nil => simpa [h, List.getD] using ih
    | cons e rest => simp [h]

/-- C5 counterexample: the claim states the real-time selection removes the
head entry (after the call the returned thread has no ready-queue entry).  In
the concrete state `kRealtime` thread 1 is queued once; real-time selection
returns 1 but the entry is still there afterwards. -/
theorem C5_counterexample :
    queueCount kRealtime.sched.queues 1 = 1 ∧
    (get_next_thread kRealtime Frac.zero).1 = 1 ∧
    queueCount (get_next_thread kRealtime Frac.zero).2.sched.queues 1 = 1 := by
  refine ⟨by decide, by decide, by decide⟩

/-- C5 (amended): under the real-time policy, selection returns the head
thread of the first non-empty queue scanning from the highest level, and
leaves the entire kernel state — in particular the ready queues — untouched
(a peek, not a pop). -/
theorem C5_realtime_selection_peeks (k : KState) (q : Frac)
    (h : k.sched.stype = .realtime) :
    get_next_thread k q = (rt_head_spec k.sched.queues, k) := by
  unfold get_next_thread
  rw [h]
  rw [rt_scan_eq_spec]
  rfl

/-- Witness for C5 at the concrete state `kRealtime`. -/
theorem C5_realtime_selection_peeks_witness :
    get_next_thread kRealtime Frac.zero = (rt_head_spec kRealtime.sched.queues, kRealtime) :=
  C5_realtime_selection_peeks kRealtime Frac.zero (by decide)

/-- A list with no match is left unchanged by eraseFirst. -/
theorem eraseFirst_of_not_any (p : α → Bool) (l : List α) (h : l.any p = false) :
    eraseFirst p l = l := by
  induction l with
  | nil => rfl
  | cons x xs ih =>
    simp only [List.any_cons, Bool.or_eq_false_iff] at h
    simp [eraseFirst, h.1, ih h.2]

/-- eraseFirst removes exactly one match when one exists. -/
theorem filter_length_eraseFirst (p : α → Bool) (l : List α) (h : l.any p = true) :
    ((eraseFirst p l).filter p).length + 1 = (l.filter p).length := by
  induction l with
  | nil => simp at h
  | cons x xs ih =>
    by_cases hx : p x = true
    · simp [eraseFirst, hx, List.filter_cons]
    · have h2 : xs.any p = true := by
        simp only [List.any_cons] at h
        cases hpx : p x
        · simpa [hpx] using h
        · exact absurd hpx hx
      simp [eraseFirst, hx, List.filter_cons, ih h2]

/-- eraseFirst does not change the sublist selected by a predicate disjoint
from the erased one. -/
theorem filter_eraseFirst_disjoint (p r : α → Bool) (l : List α)
    (h : ∀ x, p x = true → r x = false) : (eraseFirst p l).filter r = l.filter r := by
  induction l with
  | nil => rfl
  | cons x xs ih =>
    by_cases hx : p x = true
    · simp [eraseFirst, hx, List.filter_cons, h x hx]
    · simp only [eraseFirst, hx, Bool.false_eq_true, if_false, List.filter_cons]
      rw [ih]

/-- remove_from_queues keeps the number of priority levels. -/
theorem remove_from_queues_length (qs : List (List QEntry)) (tid : Nat) :
    (remove_from_queues qs tid).2.length = qs.length := by
  induction qs with
  | nil => rfl
  | cons ql rest ih =>
    by_cases hq : ql.any (fun e => e.thread_id == tid) = true
    · simp [remove_from_queues, hq]
    · simp only [remove_from_queues, hq, Bool.false_eq_true, if_false]
      simp [ih]

/-- queueCount unfolded one level at a time. -/
theorem queueCount_cons (ql : List QEntry) (rest : List (List QEntry)) (t : Nat) :
    queueCount (ql :: rest) t
      = (ql.filter (fun e => e.thread_id == t)).length + queueCount rest t := rfl

/-- From a single-membership state, remove_from_queues leaves no entry for
the removed thread. -/
theorem queueCount_remove_self (qs : List (List QEntry)) (tid : Nat)
    (h : queueCount qs tid ≤ 1) :
    queueCount (remove_from_queues qs tid).2 tid = 0 := by
  induction qs with
  | nil => rfl
  | cons ql rest ih =>
    rw [queueCount_cons] at h
    by_cases hq : ql.any (fun e => e.thread_id == tid) = true
    · have h1 := filter_length_eraseFirst (fun e => e.thread_id == tid) ql hq
      have hself : queueCount rest tid ≤ 1 := by omega
      have hrest : queueCount rest tid = 0 := by omega
      simp only [remove_from_queues, hq, if_true]
      rw [queueCount_cons, hrest]
      omega
    · simp only [remove_from_queues, hq, Bool.false_eq_true, if_false]
      have hfil : (ql.filter (fun e => e.thread_id == tid)).length = 0 := by
        have hall : ∀ e ∈ ql, ¬((fun e : QEntry => e.thread_id == tid) e = true) := by
          intro e he
          simp only [List.any_eq_true, not_exists] at hq
          push_neg at hq
          exact hq e he
        simp [List.filter_eq_nil_iff.mpr hall]
      rw [queueCount_cons]
      rw [hfil]
      simpa using ih (by omega)

/-- remove_from_queues leaves every other thread's entries alone. -/
theorem queueCount_remove_other (qs : List (List QEntry)) (tid t : Nat) (h : t ≠ tid) :
    queueCount (remove_from_queues qs tid).2 t = queueCount qs t := by
  induction qs with
  | nil => rfl
  | cons ql rest ih =>
    have hdisj : ∀ e : QEntry, (e.thread_id == tid) = true → (e.thread_id == t) = false := by
      intro e he
      have : e.thread_id = tid := by simpa using he
      simp [this, Ne.symm h]
    by_cases hq : ql.any (fun e => e.thread_id == tid) = true
    · simp only [remove_from_queues, hq, if_true]
      rw [queueCount_cons, queueCount_cons, filter_eraseFirst_disjoint _ _ _ hdisj]
    · simp only [remove_from_queues, hq, Bool.false_eq_true, if_false]
      rw [queueCount_cons, queueCount_cons, ih]

/-- getD after set at the same (in-range) index. -/
theorem getD_set_self (l : List α) (i : Nat) (v d : α) (h : i < l.length) :
    (l.set i v).getD i d = v := by
  induction l generalizing i with
  | nil => simp at h
  | cons x xs ih =>
    cases i with
    | zero => rfl
    | succ j =>
      simp only [List.set_cons_succ, List.getD_cons_succ]
      exact ih j (by simpa using h)

/-- getD after set at a different index. -/
theorem getD_set_other (l : List α) (i j : Nat) (v d : α) (h : j ≠ i) :
    (l.set i v).getD j d = l.getD j d := by
  induction l generalizing i j with
  | nil => simp [List.set]
  | cons x xs ih =>
    cases i with
    | zero =>
      cases j with
      | zero => exact absurd rfl h
      | succ j2 => rfl
    | succ i2 =>
      cases j with
      | zero => rfl
      | succ j2 =>
        simp only [List.set_cons_succ, List.getD_cons_succ]
        exact ih i2 j2 (by omega)

/-- queueCount through a set of one level (in range): the old level's matches
are exchanged for the new level's matches. -/
theorem queueCount_set (qs : List (List QEntry)) (i : Nat) (v : List QEntry) (t : Nat)
    (h : i < qs.length) :
    queueCount (qs.set i v) t + ((qs.getD i []).filter (fun e => e.thread_id == t)).length
      = queueCount qs t + (v.filter (fun e => e.thread_id == t)).length := by
  induction qs generalizing i with
  | nil => simp at h
  | cons ql rest ih =>
    cases i with
    | zero =>
      simp only [List.set_cons_zero, List.getD_cons_zero]
      rw [queueCount_cons, queueCount_cons]
      omega
    | succ j =>
      simp only [List.set_cons_succ, List.getD_cons_succ]
      rw [queueCount_cons, queueCount_cons]
      have hj := ih j (by simpa using h)
      omega

/-- The clamped queue index is always in range. -/
theorem clamp_lt (priority : Nat) :
    (if priority ≥ PRIORITY_QUEUE_COUNT then PRIORITY_NORMAL else priority) <
      PRIORITY_QUEUE_COUNT := by
  simp only [PRIORITY_QUEUE_COUNT, PRIORITY_NORMAL]
  split
  · omega
  · omega

/-- updateFirst keeps the first match in place (as the first match) whenever
the update preserves the predicate. -/
theorem find?_updateFirst (p : α → Bool) (f : α → α) (l : List α)
    (hf : ∀ x, p x = true → p (f x) = true) :
    (updateFirst p f l).find? p = (l.find? p).map f := by
  induction l with
  | nil => rfl
  | cons x xs ih =>
    by_cases hx : p x = true
    · simp [updateFirst, hx, List.find?_cons, hf x hx]
    · simp only [updateFirst, hx, Bool.false_eq_true, if_false]
      rw [List.find?_cons_of_neg _ (by simp [hx]), List.find?_cons_of_neg _ (by simp [hx])]
      exact ih

/-- What find_thread sees after a setThread with an id-preserving update: the
found thread, updated. -/
theorem find_thread_setThread (ps : List Process) (tid : Nat) (f : Thread → Thread)
    (hid : ∀ t, (f t).id = t.id) :
    find_thread (setThread ps tid f) tid = (find_thread ps tid).map f := by
  induction ps with
  | nil => rfl
  | cons p ps ih =>
    by_cases hp : p.threads.any (fun th => th.id == tid) = true
    · simp only [setThread, updateFirst, hp, if_true, find_thread]
      have hfind := find?_updateFirst (fun th => th.id == tid) f p.threads
        (by intro x hx; simpa [hid x] using hx)
      rw [hfind]
      cases hft : p.threads.find? (fun th => th.id == tid) with
      | none =>
        rw [List.find?_eq_none] at hft
        rw [List.any_eq_true] at hp
        obtain ⟨th, hmem, hth⟩ := hp
        exact absurd hth (hft th hmem)
      | some th => simp
    · simp only [setThread, updateFirst, hp, Bool.false_eq_true, if_false, find_thread]
      have hnone : p.threads.find? (fun th => th.id == tid) = none := by
        rw [List.find?_eq_none]
        intro x hx
        simp only [List.any_eq_true, not_exists] at hp
        push_neg at hp
        simp [hp x hx]
      rw [hnone]
      exact ih

/-- pm_get_thread unpacked: success means the manager is initialized and the
registry scan finds the thread. -/
theorem pm_get_thread_some (st : PMState) (tid : Nat) (th : Thread)
    (h : pm_get_thread st tid = some th) :
    st.initialized = true ∧ find_thread st.processes tid = some th := by
  by_cases hi : st.initialized = true
  · refine ⟨hi, ?_⟩
    simpa [pm_get_thread, hi] using h
  · simp [pm_get_thread, hi] at h

/-- add_to_queue on an existing thread: success, and the entry goes to the
tail of the clamped level. -/
theorem add_to_queue_some (pm : PMState) (sups : List SupSlot) (qs : List (List QEntry))
    (tid priority : Nat) (th : Thread) (hth : pm_get_thread pm tid = some th) :
    add_to_queue pm sups qs tid priority =
      (true,
        qs.set (if priority ≥ PRIORITY_QUEUE_COUNT then PRIORITY_NORMAL else priority)
          (qs.getD (if priority ≥ PRIORITY_QUEUE_COUNT then PRIORITY_NORMAL else priority) [] ++
            [{ process_id := th.process_id, thread_id := tid,
               priority := if priority ≥ PRIORITY_QUEUE_COUNT then PRIORITY_NORMAL else priority,
               quantum_probability :=
                 match sups.find? (fun s => s.thread_id == tid) with
                 | some s => s.probability
                 | none => Frac.one }])) := by
  simp only [add_to_queue, hth]

/-- Appending one entry at an in-range level adds exactly one occurrence of
its thread id to the queue counts. -/
theorem queueCount_append_entry (qs1 : List (List QEntry)) (i : Nat) (e : QEntry) (t : Nat)
    (h : i < qs1.length) :
    queueCount (qs1.set i (qs1.getD i [] ++ [e])) t
      = queueCount qs1 t + (if e.thread_id == t then 1 else 0) := by
  have hset := queueCount_set qs1 i (qs1.getD i [] ++ [e]) t h
  rw [List.filter_append] at hset
  simp only [List.length_append] at hset
  by_cases he : (e.thread_id == t) = true
  · simp only [List.filter_cons, he, if_true, List.filter_nil, List.length_cons,
      List.length_nil] at hset
    simp only [he, if_true]
    omega
  · simp only [List.filter_cons, he, Bool.false_eq_true, if_false, List.filter_nil,
      List.length_nil] at hset
    simp only [he, Bool.false_eq_true, if_false]
    omega

/-- add_to_queue on an existing thread succeeds, adds one entry for that
thread and nothing else. -/
theorem add_to_queue_counts (pm' : PMState) (sups : List SupSlot)
    (qs1 : List (List QEntry)) (tid priority : Nat) (th1 : Thread)
    (hth1 : pm_get_thread pm' tid = some th1)
    (hlen1 : qs1.length = PRIORITY_QUEUE_COUNT) :
    (add_to_queue pm' sups qs1 tid priority).1 = true ∧
    queueCount (add_to_queue pm' sups qs1 tid priority).2 tid = queueCount qs1 tid + 1 ∧
    (∀ t, t ≠ tid → queueCount (add_to_queue pm' sups qs1 tid priority).2 t = queueCount qs1 t) := by
  rw [add_to_queue_some pm' sups qs1 tid priority th1 hth1]
  have hp2 : (if priority ≥ PRIORITY_QUEUE_COUNT then PRIORITY_NORMAL else priority) <
      qs1.length := by rw [hlen1]; exact clamp_lt priority
  refine ⟨rfl, ?_, ?_⟩
  · rw [queueCount_append_entry _ _ _ _ hp2]
    simp
  · intro t ht
    rw [queueCount_append_entry _ _ _ _ hp2]
    simp [Ne.symm ht]

/-- C2 (amended): `scheduler_add_thread` does remove any existing entry for
the thread before enqueueing, so from any single-membership state it
preserves single membership, and on success the thread ends with exactly one
entry (a move, not a duplicate).  The claim fails only for
`scheduler_unblock_thread`, which enqueues without removing (see the
counterexample). -/
theorem C2_add_thread_preserves_single_membership (k : KState) (tid : Nat)
    (hlen : k.sched.queues.length = PRIORITY_QUEUE_COUNT)
    (hsm : SingleMembership k.sched.queues) :
    SingleMembership (scheduler_add_thread k tid).2.sched.queues ∧
    ((scheduler_add_thread k tid).1 = true →
      queueCount (scheduler_add_thread k tid).2.sched.queues tid = 1) := by
  by_cases hi : k.sched.initialized = true
  · cases hth : pm_get_thread k.pm tid with
    | none =>
      simp only [scheduler_add_thread, hi, hth, not_true_eq_false, Bool.false_eq_true,
        if_false]
      exact ⟨hsm, by simp⟩
    | some th =>
      obtain ⟨hpmi, hft⟩ := pm_get_thread_some _ _ _ hth
      rcases hrm : remove_from_queues k.sched.queues tid with ⟨found, qs1⟩
      have hq1len : qs1.length = PRIORITY_QUEUE_COUNT := by
        have hl := remove_from_queues_length k.sched.queues tid
        rw [hrm] at hl
        rw [← hlen]
        exact hl
      have hq1tid : queueCount qs1 tid = 0 := by
        have hz := queueCount_remove_self k.sched.queues tid (hsm tid)
        rw [hrm] at hz
        exact hz
      have hq1other : ∀ t, t ≠ tid → queueCount qs1 t = queueCount k.sched.queues t := by
        intro t htne
        have ho := queueCount_remove_other k.sched.queues tid t htne
        rw [hrm] at ho
        exact ho
      have hpm1 : ∃ th1 : Thread,
          pm_get_thread (if th.state ≠ ThreadSt.running then
            { k.pm with processes := (setThread k.pm.processes tid
              (fun t => { t with state := ThreadSt.ready })) }
          else k.pm) tid = some th1 := by
        split
        · refine ⟨{ th with state := ThreadSt.ready }, ?_⟩
          have hset := find_thread_setThread k.pm.processes tid
            (fun t => { t with state := ThreadSt.ready }) (fun t => rfl)
          simp only [pm_get_thread, hpmi, not_true_eq_false, if_false]
          rw [hset, hft]
          rfl
        · exact ⟨th, hth⟩
      obtain ⟨th1, hpm1⟩ := hpm1
      have hcounts := add_to_queue_counts _ k.sched.superpositions qs1 tid th.priority th1
        hpm1 hq1len
      simp only [scheduler_add_thread, hi, not_true_eq_false, if_false, hth, hrm]
      rcases hadd : add_to_queue (if th.state ≠ ThreadSt.running then
            { k.pm with processes := (setThread k.pm.processes tid
              (fun t => { t with state := ThreadSt.ready })) }
          else k.pm) k.sched.superpositions qs1 tid th.priority with ⟨ok, qs2⟩
      rw [hadd] at hcounts
      refine ⟨?_, ?_⟩
      · intro t
        by_cases ht : t = tid
        · subst ht
          simp only
          rw [hcounts.2.1, hq1tid]
        · simp only
          rw [hcounts.2.2 t ht, hq1other t ht]
          exact hsm t
      · intro _
        simp only
        rw [hcounts.2.1, hq1tid]
  · simp only [scheduler_add_thread, hi, not_false_eq_true, if_true]
    exact ⟨hsm, by simp⟩

/-- Witness for the amended C2 at a concrete single-membership state. -/
theorem C2_add_thread_preserves_single_membership_witness :
    SingleMembership (scheduler_add_thread kQueued 1).2.sched.queues ∧
    ((scheduler_add_thread kQueued 1).1 = true →
      queueCount (scheduler_add_thread kQueued 1).2.sched.queues 1 = 1) :=
  C2_add_thread_preserves_single_membership kQueued 1 (by decide)
    (fun tid => by
      have hb : queueCount kQueued.sched.queues tid
          ≤ ([eA].filter (fun e => e.thread_id == tid)).length := by
        simp [queueCount, kQueued, schedQueued, schedBase, scheduler_init]
      calc queueCount kQueued.sched.queues tid
          ≤ ([eA].filter (fun e => e.thread_id == tid)).length := hb
        _ ≤ [eA].length := List.length_filter_le _ _
        _ = 1 := by decide)

/-- C10: `pm_set_thread_priority` accepts any priority value without range
validation, and `scheduler_add_thread` on an existing thread whose stored
priority is at or beyond the number of queue levels succeeds and enqueues the
thread at the tail of the Normal-priority queue — the out-of-range priority
is silently clamped and no other queue is touched. -/
theorem C10_out_of_range_priority_clamped (k : KState) (tid : Nat) (th : Thread) (p : Nat)
    (hi : k.sched.initialized = true)
    (hth : pm_get_thread k.pm tid = some th)
    (hpr : th.priority ≥ PRIORITY_QUEUE_COUNT)
    (hlen : k.sched.queues.length = PRIORITY_QUEUE_COUNT) :
    (pm_set_thread_priority k.pm tid p).1 = true ∧
    (scheduler_add_thread k tid).1 = true ∧
    (∃ w : Frac,
      (scheduler_add_thread k tid).2.sched.queues.getD PRIORITY_NORMAL [] =
        (remove_from_queues k.sched.queues tid).2.getD PRIORITY_NORMAL [] ++
          [{ process_id := th.process_id, thread_id := tid, priority := PRIORITY_NORMAL,
             quantum_probability := w }]) ∧
    (∀ j, j ≠ PRIORITY_NORMAL →
      (scheduler_add_thread k tid).2.sched.queues.getD j [] =
        (remove_from_queues k.sched.queues tid).2.getD j []) := by
  obtain ⟨hpmi, hft⟩ := pm_get_thread_some _ _ _ hth
  refine ⟨by simp [pm_set_thread_priority, hpmi, hft], ?_⟩
  rcases hrm : remove_from_queues k.sched.queues tid with ⟨found, qs1⟩
  have hq1len : qs1.length = PRIORITY_QUEUE_COUNT := by
    have hl := remove_from_queues_length k.sched.queues tid
    rw [hrm] at hl
    rw [← hlen]
    exact hl
  have hclamp : (if th.priority ≥ PRIORITY_QUEUE_COUNT then PRIORITY_NORMAL else th.priority)
      = PRIORITY_NORMAL := if_pos hpr
  have hpm1 : ∃ th1 : Thread,
      pm_get_thread (if th.state ≠ ThreadSt.running then
        { k.pm with processes := (setThread k.pm.processes tid
          (fun t => { t with state := ThreadSt.ready })) }
      else k.pm) tid = some th1 ∧ th1.process_id = th.process_id := by
    split
    · refine ⟨{ th with state := ThreadSt.ready }, ?_, rfl⟩
      have hset := find_thread_setThread k.pm.processes tid
        (fun t => { t with state := ThreadSt.ready }) (fun t => rfl)
      simp only [pm_get_thread, hpmi, not_true_eq_false, if_false]
      rw [hset, hft]
      rfl
    · exact ⟨th, hth, rfl⟩
  obtain ⟨th1, hpm1, hth1pid⟩ := hpm1
  simp only [scheduler_add_thread, hi, not_true_eq_false, if_false, hth, hrm]
  rw [add_to_queue_some _ k.sched.superpositions qs1 tid th.priority th1 hpm1]
  have h2lt : PRIORITY_NORMAL < qs1.length := by
    rw [hq1len]
    decide
  rw [hclamp]
  refine ⟨rfl, ?_, ?_⟩
  · refine ⟨(match k.sched.superpositions.find? (fun s => s.thread_id == tid) with
      | some s => s.probability
      | none => Frac.one), ?_⟩
    simp only
    rw [getD_set_self _ _ _ _ h2lt, hth1pid]
  · intro j hj
    simp only
    rw [getD_set_other _ _ _ _ _ hj]

/-- Witness for C10: thread 1 of `kOutOfRange` stores priority 9; adding it
lands in the Normal queue. -/
theorem C10_out_of_range_priority_clamped_witness :
    (pm_set_thread_priority kOutOfRange.pm 1 9).1 = true ∧
    (scheduler_add_thread kOutOfRange 1).1 = true ∧
    (∃ w : Frac,
      (scheduler_add_thread kOutOfRange 1).2.sched.queues.getD PRIORITY_NORMAL [] =
        (remove_from_queues kOutOfRange.sched.queues 1).2.getD PRIORITY_NORMAL [] ++
          [{ process_id := thB.process_id, thread_id := 1, priority := PRIORITY_NORMAL,
             quantum_probability := w }]) ∧
    (∀ j, j ≠ PRIORITY_NORMAL →
      (scheduler_add_thread kOutOfRange 1).2.sched.queues.getD j [] =
        (remove_from_queues kOutOfRange.sched.queues 1).2.getD j []) :=
  C10_out_of_range_priority_clamped kOutOfRange 1 thB 9 (by decide) (by decide) (by decide)
    (by decide)

/-- C2 counterexample: the claim states every enqueueing operation first
removes any existing entry for the thread.  `kQueued` — reachable from a
fresh scheduler by one `scheduler_add_thread` — satisfies single-membership
with thread 1 queued once; `scheduler_unblock_thread` on thread 1 then
enqueues a second entry for it instead of moving the existing one. -/
theorem C2_counterexample :
    (scheduler_add_thread { pm := pmA, sched := schedBase } 1).2 = kQueued ∧
    queueCount kQueued.sched.queues 1 = 1 ∧
    (scheduler_unblock_thread 0 Frac.zero 1 kQueued 1).1 = true ∧
    queueCount (scheduler_unblock_thread 0 Frac.zero 1 kQueued 1).2.sched.queues 1 = 2 := by
  refine ⟨by decide, by decide, by decide, by decide⟩

/-- A fraction with positive denominator has value 1 exactly when numerator
and denominator agree. -/
theorem Frac.toRat_eq_one (p : Frac) (hd : 0 < p.den) (h : p.toRat = 1) : p.num = p.den := by
  unfold Frac.toRat at h
  rw [div_eq_one_iff_eq (by exact_mod_cast hd.ne')] at h
  exact_mod_cast h

/-- A fraction with positive denominator has value 0 exactly when the
numerator is 0. -/
theorem Frac.toRat_eq_zero (p : Frac) (hd : 0 < p.den) (h : p.toRat = 0) : p.num = 0 := by
  unfold Frac.toRat at h
  rw [div_eq_zero_iff] at h
  rcases h with h | h
  · exact_mod_cast h
  · exact absurd h (by exact_mod_cast hd.ne')

/-- Value at most 1 means numerator at most denominator (positive
denominator). -/
theorem Frac.toRat_le_one (q : Frac) (hd : 0 < q.den) (h : q.toRat ≤ 1) : q.num ≤ q.den := by
  unfold Frac.toRat at h
  rw [div_le_one (by exact_mod_cast hd)] at h
  exact_mod_cast h

/-- Positive value means positive numerator (positive denominator). -/
theorem Frac.toRat_pos (q : Frac) (hd : 0 < q.den) (h : 0 < q.toRat) : 0 < q.num := by
  unfold Frac.toRat at h
  by_contra hc
  push_neg at hc
  have : q.toRat ≤ 0 := by
    unfold Frac.toRat
    apply div_nonpos_of_nonpos_of_nonneg
    · exact_mod_cast hc
    · exact_mod_cast hd.le
  exact absurd this (not_le.mpr h)

/-- With bias 1.0 and stored probability of value 1, the drawn sample (at
most 1) always passes the survival test. -/
theorem survive_bias_one_p_one (p q : Frac) (hp : p.num = p.den) (hpd : 0 < p.den)
    (hq : q.num ≤ q.den) :
    q.ble ((p.mul Frac.one).add ((Frac.one.sub p).mul (Frac.one.sub Frac.one))) = true := by
  simp only [Frac.mul, Frac.add, Frac.sub, Frac.one, Frac.ble, decide_eq_true_eq]
  ring_nf
  rw [hp]
  nlinarith [mul_le_mul_of_nonneg_right hq (mul_pos hpd hpd).le]

/-- With bias 1.0 and stored probability of value 0, a positive sample never
passes the survival test. -/
theorem survive_bias_one_p_zero (p q : Frac) (hp : p.num = 0) (hpd : 0 < p.den)
    (hq : 0 < q.num) :
    q.ble ((p.mul Frac.one).add ((Frac.one.sub p).mul (Frac.one.sub Frac.one))) = false := by
  simp only [Frac.mul, Frac.add, Frac.sub, Frac.one, Frac.ble, decide_eq_false_iff_not,
    not_le, hp]
  nlinarith [mul_pos hpd hpd, mul_pos hq (mul_pos hpd hpd)]

/-- restore_entry_prob keeps the number of priority levels. -/
theorem restore_entry_prob_length (tid : Nat) (qs : List (List QEntry)) :
    (restore_entry_prob tid qs).2.length = qs.length := by
  induction qs with
  | nil => rfl
  | cons ql rest ih =>
    by_cases hq : ql.any (fun e => e.thread_id == tid) = true
    · simp [restore_entry_prob, hq]
    · simp only [restore_entry_prob, hq, Bool.false_eq_true, if_false]
      simp [ih]

/-- updateFirst with a filter-invariant update keeps filter lengths. -/
theorem filter_length_updateFirst (p r : α → Bool) (f : α → α) (l : List α)
    (hf : ∀ x, r (f x) = r x) :
    ((updateFirst p f l).filter r).length = (l.filter r).length := by
  induction l with
  | nil => rfl
  | cons x xs ih =>
    by_cases hx : p x = true
    · simp only [updateFirst, hx, if_true, List.filter_cons, hf x]
      by_cases hr : r x = true
      · simp [hr]
      · simp [hr]
    · simp only [updateFirst, hx, Bool.false_eq_true, if_false, List.filter_cons]
      by_cases hr : r x = true
      · simp [hr, ih]
      · simp [hr, ih]

/-- restore_entry_prob changes no thread's number of queue entries. -/
theorem queueCount_restore (tid : Nat) (qs : List (List QEntry)) (t : Nat) :
    queueCount (restore_entry_prob tid qs).2 t = queueCount qs t := by
  induction qs with
  | nil => rfl
  | cons ql rest ih =>
    by_cases hq : ql.any (fun e => e.thread_id == tid) = true
    · simp only [restore_entry_prob, hq, if_true]
      rw [queueCount_cons, queueCount_cons]
      rw [filter_length_updateFirst (fun e => e.thread_id == tid) (fun e => e.thread_id == t)
        (fun e => { e with quantum_probability := Frac.one }) ql (fun x => rfl)]
    · simp only [restore_entry_prob, hq, Bool.false_eq_true, if_false]
      rw [queueCount_cons, queueCount_cons, ih]

/-- When restore_entry_prob reports the thread queued, it really has an
entry. -/
theorem restore_found_count (tid : Nat) (qs : List (List QEntry))
    (h : (restore_entry_prob tid qs).1 = true) : 1 ≤ queueCount qs tid := by
  induction qs with
  | nil => simp [restore_entry_prob] at h
  | cons ql rest ih =>
    by_cases hq : ql.any (fun e => e.thread_id == tid) = true
    · rw [queueCount_cons]
      rw [List.any_eq_true] at hq
      obtain ⟨e, hmem, he⟩ := hq
      have : e ∈ ql.filter (fun e => e.thread_id == tid) := List.mem_filter.mpr ⟨hmem, he⟩
      have := List.length_pos.mpr (List.ne_nil_of_mem this)
      omega
    · simp only [restore_entry_prob, hq, Bool.false_eq_true, if_false] at h
      rw [queueCount_cons]
      have := ih h
      omega

/-- liveWithId unfolded one process at a time. -/
theorem liveWithId_cons (p : Process) (ps : List Process) (tid : Nat) :
    liveWithId (p :: ps) tid
      = (p.threads.filter (fun t => t.id == tid && !(t.state == ThreadSt.terminated))).length
        + liveWithId ps tid := rfl

/-- threadsWithId unfolded one process at a time. -/
theorem threadsWithId_cons (p : Process) (ps : List Process) (tid : Nat) :
    threadsWithId (p :: ps) tid
      = (p.threads.filter (fun t => t.id == tid)).length + threadsWithId ps tid := rfl

/-- A conjunction filters to a sublist of either conjunct's filter. -/
theorem filter_and_le (p q : α → Bool) (l : List α) :
    (l.filter (fun a => p a && q a)).length ≤ (l.filter p).length := by
  induction l with
  | nil => simp
  | cons x xs ih =>
    simp only [List.filter_cons]
    by_cases hp : p x = true
    · by_cases hq : q x = true
      · simp [hp, hq]; omega
      · simp [hp, hq]; omega
    · simp [hp]; exact ih

/-- Live threads with an id are at most all threads with that id. -/
theorem live_le_threadsWithId (ps : List Process) (tid : Nat) :
    liveWithId ps tid ≤ threadsWithId ps tid := by
  induction ps with
  | nil => exact le_refl 0
  | cons p rest ih =>
    rw [liveWithId_cons, threadsWithId_cons]
    have := filter_and_le (fun t : Thread => t.id == tid)
      (fun t : Thread => !(t.state == ThreadSt.terminated)) p.threads
    omega

/-- A found thread is a member of some process's thread list, with the
searched id. -/
theorem find_thread_mem (ps : List Process) (tid : Nat) (t' : Thread)
    (h : find_thread ps tid = some t') :
    ∃ p ∈ ps, t' ∈ p.threads ∧ (t'.id == tid) = true := by
  induction ps with
  | nil => cases h
  | cons p rest ih =>
    simp only [find_thread] at h
    cases hf : p.threads.find? (fun th => th.id == tid) with
    | some th0 =>
      rw [hf] at h
      injection h with h
      subst h
      refine ⟨p, List.mem_cons_self p rest, List.mem_of_find?_eq_some hf, ?_⟩
      have hps := List.find?_some hf
      simpa using hps
    | none =>
      rw [hf] at h
      obtain ⟨p2, hp2, hmem, hid⟩ := ih h
      exact ⟨p2, List.mem_cons_of_mem p hp2, hmem, hid⟩

/-- One process's live-filter length is bounded by the registry total. -/
theorem live_term_le_sum (ps : List Process) (tid : Nat) (p : Process) (hp : p ∈ ps) :
    (p.threads.filter (fun t => t.id == tid && !(t.state == ThreadSt.terminated))).length
      ≤ liveWithId ps tid := by
  induction ps with
  | nil => cases hp
  | cons x rest ih =>
    rw [liveWithId_cons]
    rcases List.mem_cons.mp hp with h | h
    · subst h; omega
    · have := ih h; omega

/-- With no live thread of the id anywhere, any found thread of that id is
Terminated. -/
theorem live_zero_find (ps : List Process) (tid : Nat) (h : liveWithId ps tid = 0) :
    ∀ t', find_thread ps tid = some t' → t'.state = ThreadSt.terminated := by
  intro t' hf
  obtain ⟨p, hp, hmem, hid⟩ := find_thread_mem ps tid t' hf
  by_contra hs
  have hfil : t' ∈ p.threads.filter (fun t => t.id == tid && !(t.state == ThreadSt.terminated)) := by
    refine List.mem_filter.mpr ⟨hmem, ?_⟩
    simp [hid, hs]
  have h1 : 1 ≤ (p.threads.filter (fun t => t.id == tid && !(t.state == ThreadSt.terminated))).length :=
    List.length_pos.mpr (List.ne_nil_of_mem hfil)
  have h2 := live_term_le_sum ps tid p hp
  omega

/-- Killing the only thread with an id leaves that thread list without live
threads of the id. -/
theorem filter_live_after_kill (l : List Thread) (tid : Nat)
    (h1 : (l.filter (fun t => t.id == tid)).length ≤ 1) :
    ((updateFirst (fun t => t.id == tid) (fun t => { t with state := ThreadSt.terminated }) l).filter
      (fun t => t.id == tid && !(t.state == ThreadSt.terminated))).length = 0 := by
  induction l with
  | nil => rfl
  | cons x xs ih =>
    by_cases hx : (x.id == tid) = true
    · simp only [updateFirst, hx, if_true, List.filter_cons]
      have hxs : (xs.filter (fun t => t.id == tid)).length = 0 := by
        have hcons : (x :: xs).filter (fun t => t.id == tid)
            = x :: xs.filter (fun t => t.id == tid) := by
          simp [List.filter_cons, hx]
        rw [hcons, List.length_cons] at h1
        omega
      have hxs2 : (xs.filter (fun t => t.id == tid && !(t.state == ThreadSt.terminated))).length = 0 := by
        have := filter_and_le (fun t : Thread => t.id == tid)
          (fun t : Thread => !(t.state == ThreadSt.terminated)) xs
        omega
      simp [hx, hxs2]
    · simp only [updateFirst, hx, Bool.false_eq_true, if_false, List.filter_cons]
      have h1x : (xs.filter (fun t => t.id == tid)).length ≤ 1 := by
        simp only [List.filter_cons, hx, Bool.false_eq_true, if_false] at h1
        exact h1
      simp only [hx, Bool.false_and, Bool.false_eq_true, if_false]
      exact ih h1x

/-- After setThread marks the unique thread of an id Terminated, no live
thread of that id remains. -/
theorem live_after_kill (ps : List Process) (tid : Nat) (th : Thread)
    (hft : find_thread ps tid = some th)
    (huniq : threadsWithId ps tid ≤ 1) :
    liveWithId (setThread ps tid (fun t => { t with state := ThreadSt.terminated })) tid = 0 := by
  induction ps with
  | nil => cases hft
  | cons p rest ih =>
    rw [threadsWithId_cons] at huniq
    by_cases hp : p.threads.any (fun t => t.id == tid) = true
    · simp only [setThread, updateFirst, hp, if_true, liveWithId_cons]
      have hone : 1 ≤ (p.threads.filter (fun t => t.id == tid)).length := by
        rw [List.any_eq_true] at hp
        obtain ⟨t0, hmem, ht0⟩ := hp
        exact List.length_pos.mpr (List.ne_nil_of_mem (List.mem_filter.mpr ⟨hmem, ht0⟩))
      have hrest0 : threadsWithId rest tid = 0 := by omega
      have hrestlive : liveWithId rest tid = 0 := by
        have := live_le_threadsWithId rest tid
        omega
      have hkill := filter_live_after_kill p.threads tid (by omega)
      simp only [setThread] at hkill
      omega
    · simp only [setThread, updateFirst, hp, Bool.false_eq_true, if_false, liveWithId_cons]
      have hpn : p.threads.find? (fun t => t.id == tid) = none := by
        rw [List.find?_eq_none]
        intro x hx
        simp only [List.any_eq_true, not_exists] at hp
        push_neg at hp
        simp [hp x hx]
      simp only [find_thread, hpn] at hft
      have hp0 : (p.threads.filter (fun t => t.id == tid)).length = 0 := by
        rw [List.length_eq_zero, List.filter_eq_nil_iff]
        intro x hx
        simp only [List.any_eq_true, not_exists] at hp
        push_neg at hp
        simp [hp x hx]
      have hlivep : (p.threads.filter (fun t => t.id == tid && !(t.state == ThreadSt.terminated))).length = 0 := by
        have := filter_and_le (fun t : Thread => t.id == tid)
          (fun t : Thread => !(t.state == ThreadSt.terminated)) p.threads
        omega
      have := ih hft (by omega)
      simp only [setThread] at this
      omega

/-- eraseFirst never increases a filter length. -/
theorem filter_eraseFirst_le (p r : α → Bool) (l : List α) :
    ((eraseFirst p l).filter r).length ≤ (l.filter r).length := by
  induction l with
  | nil => simp [eraseFirst]
  | cons x xs ih =>
    by_cases hx : p x = true
    · simp only [eraseFirst, hx, if_true, List.filter_cons]
      by_cases hr : r x = true
      · simp only [hr, if_true, List.length_cons]
        omega
      · simp [hr]
    · simp only [eraseFirst, hx, Bool.false_eq_true, if_false, List.filter_cons]
      by_cases hr : r x = true
      · simp only [hr, if_true, List.length_cons]
        omega
      · simp only [hr, Bool.false_eq_true, if_false]
        exact ih

/-- updateFirst with a live-count-nonincreasing update never increases the
registry's live count. -/
theorem live_updateFirst_le (pred : Process → Bool) (f : Process → Process)
    (ps : List Process) (tid : Nat)
    (hf : ∀ p, ((f p).threads.filter (fun t => t.id == tid && !(t.state == ThreadSt.terminated))).length
      ≤ (p.threads.filter (fun t => t.id == tid && !(t.state == ThreadSt.terminated))).length) :
    liveWithId (updateFirst pred f ps) tid ≤ liveWithId ps tid := by
  induction ps with
  | nil => exact le_refl 0
  | cons p rest ih =>
    by_cases hp : pred p = true
    · simp only [updateFirst, hp, if_true, liveWithId_cons]
      have := hf p
      omega
    · simp only [updateFirst, hp, Bool.false_eq_true, if_false, liveWithId_cons]
      omega

/-- Erasing a whole process never increases the registry's live count. -/
theorem live_eraseFirst_le (pred : Process → Bool) (ps : List Process) (tid : Nat) :
    liveWithId (eraseFirst pred ps) tid ≤ liveWithId ps tid := by
  induction ps with
  | nil => exact le_refl 0
  | cons p rest ih =>
    by_cases hp : pred p = true
    · simp only [eraseFirst, hp, if_true, liveWithId_cons]
      omega
    · simp only [eraseFirst, hp, Bool.false_eq_true, if_false, liveWithId_cons]
      omega

/-- update_process_state never revives a thread. -/
theorem live_update_process_state_le (s : ProcessStats) (p : Process) (ns : ProcessSt) (tid : Nat) :
    ((update_process_state s p ns).2.threads.filter
      (fun t => t.id == tid && !(t.state == ThreadSt.terminated))).length
      ≤ (p.threads.filter (fun t => t.id == tid && !(t.state == ThreadSt.terminated))).length := by
  unfold update_process_state
  by_cases hns : ns = ProcessSt.terminated
  · simp only [hns, if_true]
    have : ((p.threads.map (fun th => { th with state := ThreadSt.terminated })).filter
        (fun t => t.id == tid && !(t.state == ThreadSt.terminated))).length = 0 := by
      rw [List.length_eq_zero, List.filter_eq_nil_iff]
      intro x hx
      rw [List.mem_map] at hx
      obtain ⟨y, _, hy⟩ := hx
      subst hy
      simp
    simp only [this]
    omega
  · simp only [hns, if_false]
    exact le_refl _

/-- The threads of update_process_state's result at a non-Terminated target
state are untouched. -/
theorem update_process_state_threads_ne (s : ProcessStats) (p : Process) (ns : ProcessSt)
    (h : ns ≠ ProcessSt.terminated) :
    (update_process_state s p ns).2.threads = p.threads := by
  unfold update_process_state
  simp [h]

/-- find_process unfolded one process at a time. -/
theorem find_process_cons (x : Process) (rest : List Process) (pid : Nat) :
    find_process (x :: rest) pid
      = if (x.id == pid) = true then some x else find_process rest pid := by
  unfold find_process
  cases h : (x.id == pid) with
  | true => simp [List.find?_cons, h]
  | false => simp [List.find?_cons, h]

/-- setProcess with a constant replacement whose live count is bounded by the
found process's never increases the registry's live count. -/
theorem live_setProcess_found_le (ps : List Process) (pid : Nat) (p p2 : Process) (tid : Nat)
    (hfp : find_process ps pid = some p)
    (hle : (p2.threads.filter (fun t => t.id == tid && !(t.state == ThreadSt.terminated))).length
      ≤ (p.threads.filter (fun t => t.id == tid && !(t.state == ThreadSt.terminated))).length) :
    liveWithId (setProcess ps pid (fun _ => p2)) tid ≤ liveWithId ps tid := by
  induction ps with
  | nil => cases hfp
  | cons x rest ih =>
    rw [find_process_cons] at hfp
    by_cases hx : (x.id == pid) = true
    · rw [if_pos hx] at hfp
      have hxp : x = p := by injection hfp
      subst hxp
      simp only [setProcess, updateFirst, hx, if_true, liveWithId_cons]
      omega
    · rw [if_neg hx] at hfp
      have := ih hfp
      simp only [setProcess, updateFirst, hx, Bool.false_eq_true, if_false, liveWithId_cons]
      simp only [setProcess] at this
      omega

/-- Clearing one pairing member never revives a thread. -/
theorem live_break_clear_le (ety : EntanglementType) (st : PMState) (pid tid : Nat) :
    liveWithId (break_clear_member ety st pid).processes tid ≤ liveWithId st.processes tid := by
  unfold break_clear_member
  cases hfp : find_process st.processes pid with
  | none => exact le_refl _
  | some p =>
    simp only
    split
    · show liveWithId (setProcess st.processes pid
        (fun _ => (update_process_state st.stats { p with entanglement_id := 0 } .ready).2)) tid
        ≤ liveWithId st.processes tid
      refine live_setProcess_found_le st.processes pid p _ tid hfp ?_
      rw [update_process_state_threads_ne _ _ _ (by simp)]
    · exact live_setProcess_found_le st.processes pid p _ tid hfp (le_refl _)

/-- Breaking a process entanglement never revives a thread. -/
theorem live_break_le (st : PMState) (eid tid : Nat) :
    liveWithId (pm_break_process_entanglement st eid).2.processes tid
      ≤ liveWithId st.processes tid := by
  unfold pm_break_process_entanglement
  by_cases hi : st.initialized = true
  · simp only [hi, not_true_eq_false, if_false]
    cases hfe : st.entanglements.find? (fun e => e.id == eid) with
    | none => exact le_refl _
    | some ent =>
      simp only
      exact le_trans (live_break_clear_le ent.etype _ ent.second_process tid)
        (live_break_clear_le ent.etype st ent.first_process tid)
  · simp only [hi, not_false_eq_true, if_true]
    exact le_refl _

/-- Terminating a process never revives a thread. -/
theorem live_terminate_process_le (st : PMState) (pid ec tid : Nat) :
    liveWithId (pm_terminate_process st pid ec).2.processes tid
      ≤ liveWithId st.processes tid := by
  unfold pm_terminate_process
  by_cases hi : st.initialized = true
  · simp only [hi, not_true_eq_false, if_false]
    cases hfp : find_process st.processes pid with
    | none => exact le_refl _
    | some p =>
      simp only
      by_cases hterm : p.state = ProcessSt.terminated
      · simp only [hterm, if_true]
        exact le_refl _
      · simp only [hterm, if_false]
        have hst1 : liveWithId (if p.entanglement_id ≠ 0
            then (pm_break_process_entanglement st p.entanglement_id).2 else st).processes tid
            ≤ liveWithId st.processes tid := by
          split
          · exact live_break_le st p.entanglement_id tid
          · exact le_refl _
        cases hfp1 : find_process (if p.entanglement_id ≠ 0
            then (pm_break_process_entanglement st p.entanglement_id).2 else st).processes pid with
        | none => exact hst1
        | some p1 =>
          refine le_trans ?_ hst1
          show liveWithId (terminate_free_all _ pid p1 ec).processes tid ≤ _
          unfold terminate_free_all remove_process
          refine le_trans (live_eraseFirst_le _ _ tid) ?_
          exact live_setProcess_found_le _ pid p1 _ tid hfp1 (by simp)
  · simp only [hi, not_false_eq_true, if_true]
    exact le_refl _

/-- pm_terminate_thread on the unique thread of an id (whose process exists)
leaves every registry lookup of that id Terminated, whatever branch is
taken. -/
theorem pm_terminate_thread_kills (st : PMState) (tid ec : Nat) (th : Thread)
    (hinit : st.initialized = true)
    (hft : find_thread st.processes tid = some th)
    (hpr : (find_process st.processes th.process_id).isSome = true)
    (huniq : threadsWithId st.processes tid ≤ 1) :
    ∀ t', find_thread (pm_terminate_thread st tid ec).2.processes tid = some t' →
      t'.state = ThreadSt.terminated := by
  intro t' hf'
  rcases hfp : find_process st.processes th.process_id with _ | pr
  · rw [hfp] at hpr
    simp at hpr
  · simp only [pm_terminate_thread, hinit, not_true_eq_false, if_false, hft, hfp] at hf'
    by_cases hdead : th.state = ThreadSt.terminated
    · simp only [hdead, if_true] at hf'
      rw [hft] at hf'
      injection hf' with hf'
      rw [← hf']
      exact hdead
    · simp only [hdead, if_false] at hf'
      have hlive1 : liveWithId (setThread st.processes tid
          (fun t => { t with state := ThreadSt.terminated })) tid = 0 :=
        live_after_kill st.processes tid th hft huniq
      by_cases hall : pr.threads.all
          (fun t => t.id == tid || t.state == ThreadSt.terminated) = true
      · simp only [hall, if_true] at hf'
        have hle := live_terminate_process_le
          { st with processes := (setThread st.processes tid
              (fun t => { t with state := ThreadSt.terminated })) } pr.id ec tid
        rw [hinit] at hle
        simp only at hle
        refine live_zero_find _ _ ?_ t' hf'
        omega
      · simp only [hall, Bool.false_eq_true, if_false] at hf'
        have hle : liveWithId (setProcess (setThread st.processes tid
            (fun t => { t with state := ThreadSt.terminated })) pr.id
            (fun prr => { prr with
              threads := eraseFirst (fun t => t.id == tid) prr.threads,
              thread_count := prr.thread_count - 1 })) tid
            ≤ liveWithId (setThread st.processes tid
              (fun t => { t with state := ThreadSt.terminated })) tid := by
          refine live_updateFirst_le _ _ _ tid (fun prr => ?_)
          exact filter_eraseFirst_le _ _ prr.threads
        refine live_zero_find _ _ ?_ t' hf'
        omega

/-- C4 counterexample: the claim states that with stored probability 0 and
bias 1.0 the thread never survives, for every value of the random sample.
At sample exactly 0 the survival test `sample ≤ p'` passes with p' = 0: in
`kSlotZero` (thread 1 in a slot with probability 0) the collapse declares
survival, sets the thread Ready and enqueues it. -/
theorem C4_counterexample :
    (kSlotZero.sched.superpositions.getD 0 emptySlot).probability = Frac.zero ∧
    (scheduler_collapse_superposition kSlotZero 1 Frac.one Frac.zero).1 = true ∧
    pm_get_thread (scheduler_collapse_superposition kSlotZero 1 Frac.one Frac.zero).2.pm 1
      = some { thA with state := ThreadSt.ready } ∧
    queueCount (scheduler_collapse_superposition kSlotZero 1 Frac.one Frac.zero).2.sched.queues 1
      = 1 := by
  refine ⟨by decide, by decide, by decide, by decide⟩

/-- C4 (amended): for a thread holding a superposition slot, with bias 1.0
the biased probability reduces to the stored probability p.  If p has value 1
(numerator equals denominator) the thread survives for every sample of value
at most 1: the collapse succeeds, the thread is Ready afterwards and has a
ready-queue entry.  If p has value 0 (numerator 0) the thread is terminated
for every sample of positive value — survival at p = 0 happens only for the
sample exactly 0 (see the counterexample). -/
theorem C4_collapse_extremes (k : KState) (tid : Nat) (th : Thread) (q : Frac) (i : Nat)
    (hsi : k.sched.initialized = true)
    (hth : pm_get_thread k.pm tid = some th)
    (hslot : k.sched.superpositions.findIdx? (fun s => s.thread_id == tid) = some i)
    (hlen : k.sched.queues.length = PRIORITY_QUEUE_COUNT)
    (hqd : 0 < q.den) (hq1 : q.num ≤ q.den)
    (hpd : 0 < (k.sched.superpositions.getD i emptySlot).probability.den)
    (hprc : (find_process k.pm.processes th.process_id).isSome = true)
    (huniq : threadsWithId k.pm.processes tid ≤ 1) :
    ((k.sched.superpositions.getD i emptySlot).probability.num
        = (k.sched.superpositions.getD i emptySlot).probability.den →
      (scheduler_collapse_superposition k tid Frac.one q).1 = true ∧
      pm_get_thread (scheduler_collapse_superposition k tid Frac.one q).2.pm tid
        = some { th with state := ThreadSt.ready } ∧
      1 ≤ queueCount (scheduler_collapse_superposition k tid Frac.one q).2.sched.queues tid) ∧
    ((k.sched.superpositions.getD i emptySlot).probability.num = 0 → 0 < q.num →
      (scheduler_collapse_superposition k tid Frac.one q).1 = true ∧
      (∀ t', pm_get_thread (scheduler_collapse_superposition k tid Frac.one q).2.pm tid = some t' →
        t'.state = ThreadSt.terminated)) := by
  obtain ⟨hpmi, hft⟩ := pm_get_thread_some _ _ _ hth
  have hpm1 : pm_get_thread
      { k.pm with processes := (setThread k.pm.processes tid
        (fun t => { t with state := ThreadSt.ready })) } tid
      = some { th with state := ThreadSt.ready } := by
    have hset := find_thread_setThread k.pm.processes tid
      (fun t => { t with state := ThreadSt.ready }) (fun t => rfl)
    simp only [pm_get_thread, hpmi, not_true_eq_false, if_false]
    rw [hset, hft]
    rfl
  constructor
  · intro hpone
    have hsurv := survive_bias_one_p_one _ q hpone hpd hq1
    rcases hre : restore_entry_prob tid k.sched.queues with ⟨inq, qs1⟩
    have hq1len : qs1.length = PRIORITY_QUEUE_COUNT := by
      have hl := restore_entry_prob_length tid k.sched.queues
      rw [hre] at hl
      rw [← hlen]
      exact hl
    have hq1cnt : queueCount qs1 tid = queueCount k.sched.queues tid := by
      have hc := queueCount_restore tid k.sched.queues tid
      rw [hre] at hc
      exact hc
    simp only [scheduler_collapse_superposition, hsi, not_true_eq_false, if_false, hslot,
      hth, hre]
    rw [if_pos (by decide : Frac.zero.ble Frac.one = true ∧ Frac.one.ble Frac.one = true)]
    rw [hsurv]
    simp only [if_true]
    refine ⟨trivial, hpm1, ?_⟩
    by_cases hinq : inq = true
    · simp only [hinq, if_true]
      have hfound : 1 ≤ queueCount k.sched.queues tid := by
        apply restore_found_count tid k.sched.queues
        rw [hre, hinq]
      omega
    · simp only [hinq, Bool.false_eq_true, if_false]
      have hcounts := add_to_queue_counts _ k.sched.superpositions qs1 tid th.priority
        { th with state := ThreadSt.ready } hpm1 hq1len
      show 1 ≤ queueCount (add_to_queue
        { k.pm with processes := (setThread k.pm.processes tid
          (fun t => { t with state := ThreadSt.ready })) }
        k.sched.superpositions qs1 tid th.priority).2 tid
      rw [hcounts.2.1]
      omega
  · intro hpzero hqn
    have hsurv := survive_bias_one_p_zero _ q hpzero hpd hqn
    rcases hterm : pm_terminate_thread k.pm tid 0 with ⟨b1, pmT⟩
    simp only [scheduler_collapse_superposition, hsi, not_true_eq_false, if_false, hslot,
      hth, hterm]
    rw [if_pos (by decide : Frac.zero.ble Frac.one = true ∧ Frac.one.ble Frac.one = true)]
    rw [hsurv]
    simp only [Bool.false_eq_true, if_false]
    refine ⟨trivial, ?_⟩
    intro t' ht'
    have hkills := pm_terminate_thread_kills k.pm tid 0 th hpmi hft hprc huniq t'
    rw [hterm] at hkills
    apply hkills
    exact (pm_get_thread_some _ _ _ ht').2

/-- Witness for C4 at `kSlotOne` (probability 1, sample 1/2): the thread
survives, is Ready and queued; the probability-0 premise is false there, so
the second clause holds as well. -/
theorem C4_collapse_extremes_witness :
    ((kSlotOne.sched.superpositions.getD 0 emptySlot).probability.num
        = (kSlotOne.sched.superpositions.getD 0 emptySlot).probability.den →
      (scheduler_collapse_superposition kSlotOne 1 Frac.one Frac.half).1 = true ∧
      pm_get_thread (scheduler_collapse_superposition kSlotOne 1 Frac.one Frac.half).2.pm 1
        = some { thA with state := ThreadSt.ready } ∧
      1 ≤ queueCount (scheduler_collapse_superposition kSlotOne 1 Frac.one Frac.half).2.sched.queues 1) ∧
    ((kSlotOne.sched.superpositions.getD 0 emptySlot).probability.num = 0 →
      0 < (Frac.half).num →
      (scheduler_collapse_superposition kSlotOne 1 Frac.one Frac.half).1 = true ∧
      (∀ t', pm_get_thread (scheduler_collapse_superposition kSlotOne 1 Frac.one Frac.half).2.pm 1
          = some t' →
        t'.state = ThreadSt.terminated)) :=
  C4_collapse_extremes kSlotOne 1 thA Frac.half 0 (by decide) (by decide) (by decide)
    (by decide) (by decide) (by decide) (by decide) (by decide) (by decide)

/-- Checking a thread id against the projected seen list is the code's
duplicate check. -/
theorem any_map_fst (cands : List (Nat × Frac)) (x : Nat) :
    (cands.map (fun c => c.1)).any (fun y => y == x) = cands.any (fun c => c.1 == x) := by
  induction cands with
  | nil => rfl
  | cons c cs ih => simp [List.any_cons, ih]

/-- keepFirsts only consults the seen list through membership tests. -/
theorem keepFirsts_congr (l : List (Nat × Frac)) (s1 s2 : List Nat)
    (h : ∀ x, s1.any (fun y => y == x) = s2.any (fun y => y == x)) :
    keepFirsts l s1 = keepFirsts l s2 := by
  induction l generalizing s1 s2 with
  | nil => rfl
  | cons c cs ih =>
    simp only [keepFirsts, h c.1]
    by_cases hc : s2.any (fun y => y == c.1) = true
    · simp only [hc, if_true]
      exact ih s1 s2 h
    · simp only [hc, Bool.false_eq_true, if_false]
      congr 1
      refine ih _ _ (fun x => ?_)
      simp [List.any_cons, h x]

/-- keepFirsts over an append: the second part is deduplicated against the
ids kept from the first part as well. -/
theorem keepFirsts_append (xs ys : List (Nat × Frac)) (seen : List Nat) :
    keepFirsts (xs ++ ys) seen
      = keepFirsts xs seen
        ++ keepFirsts ys ((keepFirsts xs seen).map (fun c => c.1) ++ seen) := by
  induction xs generalizing seen with
  | nil => simp [keepFirsts]
  | cons c cs ih =>
    by_cases hc : seen.any (fun y => y == c.1) = true
    · simp only [List.cons_append, keepFirsts, hc, if_true, List.append_eq]
      have := ih seen
      simp only [List.append_eq] at this
      exact this
    · simp only [List.cons_append, keepFirsts, hc, Bool.false_eq_true, if_false,
        List.map_cons, List.append_eq]
      have hih := ih (c.1 :: seen)
      simp only [List.append_eq] at hih
      rw [hih]
      congr 2
      apply keepFirsts_congr
      intro x
      simp only [List.any_append, List.any_cons]
      cases hA : ((keepFirsts cs (c.1 :: seen)).map (fun c => c.1)).any (fun y => y == x) <;>
        cases hB : (c.1 == x) <;>
          cases hC : seen.any (fun y => y == x) <;> simp [hA, hB, hC]

/-- The candidate collection of one level's queue, described as keep-first
deduplication against the already-listed ids, truncated at the candidate
array's remaining room. -/
theorem quantum_entries_scan_spec (i : Nat) (es : List QEntry) (cands : List (Nat × Frac)) :
    quantum_entries_scan i es cands
      = cands ++ (keepFirsts (es.map (fun e => (e.thread_id, qweight e i)))
          (cands.map (fun c => c.1))).take (MAX_SUPERPOSITIONS * 2 - cands.length) := by
  induction es generalizing cands with
  | nil => simp [quantum_entries_scan, keepFirsts]
  | cons e es ih =>
    have h64 : MAX_SUPERPOSITIONS * 2 = 64 := rfl
    by_cases hlt : cands.length < MAX_SUPERPOSITIONS * 2
    · by_cases hmem : cands.any (fun c => c.1 == e.thread_id) = true
      · simp only [quantum_entries_scan, hlt, if_true, hmem]
        rw [ih]
        simp only [List.map_cons, keepFirsts, any_map_fst, hmem, if_true]
      · simp only [quantum_entries_scan, hlt, if_true, hmem, Bool.false_eq_true, if_false]
        rw [ih]
        have hseen := keepFirsts_congr (es.map (fun e2 => (e2.thread_id, qweight e2 i)))
          ((cands ++ [(e.thread_id, qweight e i)]).map (fun c => c.1))
          (e.thread_id :: cands.map (fun c => c.1)) (fun x => by
            simp only [List.map_append, List.map_cons, List.map_nil, List.any_append,
              List.any_cons, List.any_nil]
            cases hA : (cands.map (fun c => c.1)).any (fun y => y == x) <;>
              cases hB : (e.thread_id == x) <;> simp [hA, hB])
        rw [hseen]
        simp only [List.map_cons, keepFirsts, any_map_fst, hmem, Bool.false_eq_true, if_false,
          List.length_append, List.length_cons, List.length_nil]
        rw [show MAX_SUPERPOSITIONS * 2 - cands.length
            = (MAX_SUPERPOSITIONS * 2 - (cands.length + 1)) + 1 by omega]
        rw [List.take_succ_cons, List.append_assoc]
        simp only [List.singleton_append]
    · simp only [quantum_entries_scan, hlt, if_false]
      rw [show MAX_SUPERPOSITIONS * 2 - cands.length = 0 by omega]
      simp

/-- The candidate collection over all levels, described as keep-first
deduplication of the flattened per-level weighted entries. -/
theorem quantum_queue_scan_spec (queues : List (List QEntry)) (levels : List Nat)
    (cands : List (Nat × Frac)) :
    quantum_queue_scan queues levels cands
      = cands ++ (keepFirsts ((levels.map (fun i => (queues.getD i []).map
            (fun e => (e.thread_id, qweight e i)))).flatten)
          (cands.map (fun c => c.1))).take (MAX_SUPERPOSITIONS * 2 - cands.length) := by
  induction levels generalizing cands with
  | nil => simp [quantum_queue_scan, keepFirsts]
  | cons i is ih =>
    simp only [quantum_queue_scan]
    rw [quantum_entries_scan_spec, ih]
    simp only [List.map_cons, List.flatten_cons]
    rw [keepFirsts_append]
    rw [List.take_append_eq_append_take]
    by_cases hK : (keepFirsts ((queues.getD i []).map (fun e => (e.thread_id, qweight e i)))
        (cands.map (fun c => c.1))).length ≤ MAX_SUPERPOSITIONS * 2 - cands.length
    · rw [List.take_of_length_le hK]
      rw [List.append_assoc]
      congr 1
      congr 1
      congr 1
      · simp only [List.length_append]
        omega
      · apply keepFirsts_congr
        intro x
        simp only [List.map_append, List.any_append]
        cases hA : (cands.map (fun c => c.1)).any (fun y => y == x) <;>
          cases hB : ((keepFirsts ((queues.getD i []).map (fun e => (e.thread_id, qweight e i)))
            (cands.map (fun c => c.1))).map (fun c => c.1)).any (fun y => y == x) <;>
            simp [hA, hB]
    · push_neg at hK
      have hA0 : MAX_SUPERPOSITIONS * 2 - cands.length
          - (keepFirsts ((queues.getD i []).map (fun e => (e.thread_id, qweight e i)))
            (cands.map (fun c => c.1))).length = 0 := by omega
      have hlenA : ((keepFirsts ((queues.getD i []).map (fun e => (e.thread_id, qweight e i)))
          (cands.map (fun c => c.1))).take (MAX_SUPERPOSITIONS * 2 - cands.length)).length
          = MAX_SUPERPOSITIONS * 2 - cands.length := by
        rw [List.length_take]
        omega
      rw [hA0]
      simp only [List.take_zero, List.append_nil]
      rw [List.append_assoc]
      congr 1
      rw [show MAX_SUPERPOSITIONS * 2 - (cands ++ (keepFirsts ((queues.getD i []).map
            (fun e => (e.thread_id, qweight e i)))
            (cands.map (fun c => c.1))).take (MAX_SUPERPOSITIONS * 2 - cands.length)).length = 0 by
        simp only [List.length_append, hlenA]
        omega]
      simp

/-- The cumulative selection walk, described through prefix sums. -/
theorem select_walk_spec (q : Frac) (cands : List (Nat × Frac)) (acc : Frac) :
    select_walk q cands acc
      = ((cands.zip (cumWeights (cands.map (fun c => c.2)) acc)).find?
          (fun cw => q.ble cw.2)).map (fun cw => cw.1.1) := by
  induction cands generalizing acc with
  | nil => rfl
  | cons c cs ih =>
    simp only [select_walk, List.map_cons, cumWeights, List.zip_cons_cons, List.find?_cons]
    by_cases hb : q.ble (acc.add c.2) = true
    · simp [hb]
    · simp only [hb, Bool.false_eq_true, if_false]
      exact ih (acc.add c.2)

/-- The claim's flattened weighted queue scan equals the spec-side pair
construction. -/
theorem spec_queue_weighted_eq (queues : List (List QEntry)) :
    spec_queue_weighted queues
      = (levelsDesc.map (fun i => (queues.getD i []).map
          (fun e => (e.thread_id, qweight e i)))).flatten := by
  unfold spec_queue_weighted level_entry_pairs
  rw [List.map_flatten]
  refine congrArg List.flatten ?_
  rw [List.map_map]
  refine List.map_congr_left (fun i _ => ?_)
  simp only [Function.comp_apply, List.map_map]
  rfl

/-- C3 (amended): the probabilistic selection is exactly the claim's
algorithm with two corrections — the candidate list is capped at
MAX_SUPERPOSITIONS * 2 entries (queue scanning stops once the candidate
array is full), and 0 is returned not only for an empty candidate set but
also when the total candidate weight is not positive. -/
theorem C3_quantum_selection_capped (sups : List SupSlot) (queues : List (List QEntry))
    (q : Frac) :
    quantum_select sups queues q = spec_quantum_select_capped sups queues q := by
  have hcands : quantum_queue_scan queues levelsDesc (sup_candidates sups)
      = spec_cands_capped sups queues := by
    rw [quantum_queue_scan_spec]
    unfold spec_cands_capped
    rw [spec_queue_weighted_eq]
  unfold quantum_select spec_quantum_select_capped
  rw [hcands]
  simp only [List.length_eq_zero]
  rw [select_walk_spec]
  rfl

set_option maxRecDepth 10000

/-- C3 counterexample: with 65 distinct full-weight threads queued at the
highest level (no superpositions), the claim's algorithm (every ready-queue
thread not already listed) selects thread 65 at sample 1, but the code's
candidate array holds only 64 candidates, so it selects thread 64. -/
theorem C3_counterexample :
    quantum_select supsEmpty bigQueues Frac.one = 64 ∧
    spec_quantum_select_uncapped supsEmpty bigQueues Frac.one = 65 := by
  refine ⟨by decide, by decide⟩

/-! Lemmas for C6: terminating the sole live thread of a process. -/

/-- Mapping a projection invariant under the rewrite across updateFirst. -/
theorem map_updateFirst_inv (p : α → Bool) (f : α → α) (g : α → β) (l : List α)
    (h : ∀ x, g (f x) = g x) :
    (updateFirst p f l).map g = l.map g := by
  induction l with
  | nil => rfl
  | cons x xs ih =>
    by_cases hx : p x = true
    · simp only [updateFirst, hx, if_true, List.map_cons, h x]
    · simp only [updateFirst, hx, Bool.false_eq_true, if_false, List.map_cons]
      rw [ih]

/-- setThread only rewrites thread fields other than the id: the registry
skeleton is unchanged. -/
theorem regShape_setThread (ps : List Process) (tid : Nat) (f : Thread → Thread)
    (hid : ∀ t, (f t).id = t.id) :
    regShape (setThread ps tid f) = regShape ps := by
  unfold regShape setThread
  refine map_updateFirst_inv _ _ procShape ps (fun p => ?_)
  show (p.id, (updateFirst (fun th => th.id == tid) f p.threads).map (fun t => t.id))
      = (p.id, p.threads.map (fun t => t.id))
  rw [map_updateFirst_inv _ f (fun t => t.id) p.threads hid]

/-- The ids of the registry are the first components of its skeleton. -/
theorem regShape_fst (ps : List Process) :
    (regShape ps).map Prod.fst = ps.map (fun p => p.id) := by
  unfold regShape
  rw [List.map_map]
  rfl

/-- Skeleton-equal registries have equal id lists. -/
theorem ids_of_regShape (ps1 ps2 : List Process) (h : regShape ps1 = regShape ps2) :
    ps1.map (fun p => p.id) = ps2.map (fun p => p.id) := by
  rw [← regShape_fst, ← regShape_fst, h]

/-- find_process after an updateFirst whose rewrite preserves the id: the
same position is found, holding the original or the rewritten record. -/
theorem find_process_updateFirst (P : Process → Bool) (G : Process → Process)
    (hid : ∀ x, (G x).id = x.id) (ps : List Process) (pid : Nat) (p : Process)
    (hfp : find_process ps pid = some p) :
    find_process (updateFirst P G ps) pid = some p ∨
      find_process (updateFirst P G ps) pid = some (G p) := by
  induction ps with
  | nil => cases hfp
  | cons x rest ih =>
    rw [find_process_cons] at hfp
    by_cases hP : P x = true
    · simp only [updateFirst, hP, if_true]
      rw [find_process_cons]
      by_cases hx : (x.id == pid) = true
      · rw [if_pos hx] at hfp
        injection hfp with hfp
        subst hfp
        right
        rw [if_pos (show ((G x).id == pid) = true by rw [hid]; exact hx)]
      · rw [if_neg hx] at hfp
        left
        rw [if_neg (show ¬ (((G x).id == pid) = true) by rw [hid]; exact hx)]
        exact hfp
    · simp only [updateFirst, hP, Bool.false_eq_true, if_false]
      rw [find_process_cons]
      by_cases hx : (x.id == pid) = true
      · rw [if_pos hx] at hfp
        rw [if_pos hx]
        left
        exact hfp
      · rw [if_neg hx] at hfp
        rw [if_neg hx]
        exact ih hfp

/-- What find_process returns carries the searched id. -/
theorem find_process_id (ps : List Process) (pid : Nat) (p : Process)
    (hfp : find_process ps pid = some p) : p.id = pid := by
  unfold find_process at hfp
  have h := List.find?_some hfp
  simpa using h

/-- find_process only inspects ids: registries with equal id lists find a
process at the same positions. -/
theorem find_process_isSome_of_ids (ps1 ps2 : List Process) (pid : Nat)
    (h : ps1.map (fun p => p.id) = ps2.map (fun p => p.id)) :
    (find_process ps1 pid).isSome = (find_process ps2 pid).isSome := by
  induction ps1 generalizing ps2 with
  | nil =>
    cases ps2 with
    | nil => rfl
    | cons y ys => cases h
  | cons x xs ih =>
    cases ps2 with
    | nil => cases h
    | cons y ys =>
      simp only [List.map_cons, List.cons.injEq] at h
      rw [find_process_cons, find_process_cons, h.1]
      by_cases hy : (y.id == pid) = true
      · rw [if_pos hy, if_pos hy]
        rfl
      · rw [if_neg hy, if_neg hy]
        exact ih ys h.2

/-- setProcess with a constant rewrite whose projection matches the found
process preserves the registry's projection. -/
theorem map_setProcess_found (g : Process → β) (ps : List Process) (pid : Nat)
    (p p2 : Process) (hfp : find_process ps pid = some p) (hg : g p2 = g p) :
    (setProcess ps pid (fun _ => p2)).map g = ps.map g := by
  induction ps with
  | nil => cases hfp
  | cons x rest ih =>
    rw [find_process_cons] at hfp
    by_cases hx : (x.id == pid) = true
    · rw [if_pos hx] at hfp
      injection hfp with hfp
      subst hfp
      simp only [setProcess, updateFirst, hx, if_true, List.map_cons, hg]
    · rw [if_neg hx] at hfp
      have htail := ih hfp
      simp only [setProcess, updateFirst, hx, Bool.false_eq_true, if_false, List.map_cons]
      simp only [setProcess] at htail
      rw [htail]

/-- break_clear_member preserves the registry skeleton. -/
theorem regShape_break_clear (ety : EntanglementType) (st : PMState) (pid : Nat) :
    regShape (break_clear_member ety st pid).processes = regShape st.processes := by
  unfold break_clear_member
  cases hfp : find_process st.processes pid with
  | none => rfl
  | some p =>
    simp only
    split
    · exact map_setProcess_found procShape st.processes pid p _ hfp rfl
    · exact map_setProcess_found procShape st.processes pid p _ hfp rfl

/-- pm_break_process_entanglement preserves the registry skeleton. -/
theorem regShape_break (st : PMState) (eid : Nat) :
    regShape (pm_break_process_entanglement st eid).2.processes = regShape st.processes := by
  unfold pm_break_process_entanglement
  by_cases hi : st.initialized = true
  · simp only [hi, not_true_eq_false, if_false]
    cases hfe : st.entanglements.find? (fun e => e.id == eid) with
    | none => rfl
    | some ent =>
      simp only
      show regShape (break_clear_member ent.etype
        (break_clear_member ent.etype st ent.first_process) ent.second_process).processes = _
      rw [regShape_break_clear, regShape_break_clear]
  · rw [if_pos hi]

/-- break_clear_member does not touch the initialized flag. -/
theorem break_clear_initialized (ety : EntanglementType) (st : PMState) (pid : Nat) :
    (break_clear_member ety st pid).initialized = st.initialized := by
  unfold break_clear_member
  cases find_process st.processes pid with
  | none => rfl
  | some p =>
    simp only
    split
    · rfl
    · rfl

/-- pm_break_process_entanglement does not touch the initialized flag. -/
theorem break_initialized (st : PMState) (eid : Nat) :
    (pm_break_process_entanglement st eid).2.initialized = st.initialized := by
  unfold pm_break_process_entanglement
  by_cases hi : st.initialized = true
  · rw [if_neg (not_not_intro hi)]
    cases st.entanglements.find? (fun e => e.id == eid) with
    | none => rfl
    | some ent =>
      simp only
      show (break_clear_member ent.etype
        (break_clear_member ent.etype st ent.first_process) ent.second_process).initialized = _
      rw [break_clear_initialized, break_clear_initialized]
  · rw [if_pos hi]

/-- terminate_free_all does not touch the initialized flag. -/
theorem terminate_free_all_initialized (st1 : PMState) (pid : Nat) (p1 : Process) (ec : Nat) :
    (terminate_free_all st1 pid p1 ec).initialized = st1.initialized := rfl

/-- The registry left by terminate_free_all: the found process replaced by its
emptied Terminated copy, which is then unlinked. -/
theorem terminate_free_all_processes_eq (st1 : PMState) (pid : Nat) (p1 : Process) (ec : Nat) :
    (terminate_free_all st1 pid p1 ec).processes
      = eraseFirst (fun x => x.id == (termP4 st1 p1 ec).id)
          (setProcess st1.processes pid (fun _ => termP4 st1 p1 ec)) := rfl

/-- The emptied copy keeps the process id. -/
theorem termP4_id (st1 : PMState) (p1 : Process) (ec : Nat) :
    (termP4 st1 p1 ec).id = p1.id := rfl

/-- The emptied copy holds no threads. -/
theorem termP4_threads (st1 : PMState) (p1 : Process) (ec : Nat) :
    (termP4 st1 p1 ec).threads = [] := rfl

/-- A thread-placement property that depends only on the skeleton transfers
across skeleton-equal registries. -/
theorem out_of_shape (ps1 ps2 : List Process) (ids : List Nat) (pid : Nat)
    (h : regShape ps1 = regShape ps2)
    (hp : ∀ pr ∈ ps2, ∀ x ∈ pr.threads, x.id ∈ ids → pr.id = pid) :
    ∀ pr ∈ ps1, ∀ x ∈ pr.threads, x.id ∈ ids → pr.id = pid := by
  induction ps1 generalizing ps2 with
  | nil =>
    intro pr hpr
    cases hpr
  | cons a l1 ih =>
    cases ps2 with
    | nil => cases h
    | cons b l2 =>
      simp only [regShape, List.map_cons, List.cons.injEq, procShape,
        Prod.mk.injEq] at h
      intro pr hpr x hx hxid
      rcases List.mem_cons.mp hpr with hpa | hptail
      · subst hpa
        have hxmem : x.id ∈ b.threads.map (fun t => t.id) := by
          rw [← h.1.2]
          exact List.mem_map.mpr ⟨x, hx, rfl⟩
        rcases List.mem_map.mp hxmem with ⟨y, hy, hyid⟩
        have hb := hp b (List.mem_cons_self b l2) y hy (by rw [hyid]; exact hxid)
        rw [h.1.1]
        exact hb
      · refine ih l2 ?_ ?_ pr hptail x hx hxid
        · exact h.2
        · intro pr2 hpr2
          exact hp pr2 (List.mem_cons_of_mem b hpr2)

/-- Replacing the first match and then erasing the first match cancel when
the replacement still matches. -/
theorem eraseFirst_updateFirst (p : α → Bool) (c : α) (l : List α) (hc : p c = true) :
    eraseFirst p (updateFirst p (fun _ => c) l) = eraseFirst p l := by
  induction l with
  | nil => rfl
  | cons x xs ih =>
    by_cases hx : p x = true
    · simp only [updateFirst, eraseFirst, hx, if_true, hc]
    · simp only [updateFirst, eraseFirst, hx, Bool.false_eq_true, if_false]
      rw [ih]

/-- After erasing the first id match from an id-nodup registry, no element
with that id remains. -/
theorem eraseFirst_id_gone (ps : List Process) (pid : Nat)
    (hnd : (ps.map (fun p => p.id)).Nodup) :
    ∀ pr ∈ eraseFirst (fun y => y.id == pid) ps, (pr.id == pid) = false := by
  induction ps with
  | nil =>
    intro pr hpr
    cases hpr
  | cons x rest ih =>
    simp only [List.map_cons, List.nodup_cons] at hnd
    cases hx : (x.id == pid) with
    | true =>
      simp only [eraseFirst, hx, if_true]
      intro pr hpr
      have hxid : x.id = pid := by simpa using hx
      cases hb : (pr.id == pid) with
      | false => rfl
      | true =>
        have hprid : pr.id = pid := by simpa using hb
        exact absurd (List.mem_map.mpr ⟨pr, hpr, (by rw [hprid, ← hxid])⟩) hnd.1
    | false =>
      simp only [eraseFirst, hx, Bool.false_eq_true, if_false]
      intro pr hpr
      rcases List.mem_cons.mp hpr with h1 | h2
      · rw [h1]
        exact hx
      · exact ih hnd.2 pr h2

/-- eraseFirst keeps only elements of the original list. -/
theorem mem_eraseFirst (p : α → Bool) (l : List α) (x : α)
    (hx : x ∈ eraseFirst p l) : x ∈ l := by
  induction l with
  | nil => cases hx
  | cons y ys ih =>
    by_cases hy : p y = true
    · simp only [eraseFirst, hy, if_true] at hx
      exact List.mem_cons_of_mem y hx
    · simp only [eraseFirst, hy, Bool.false_eq_true, if_false] at hx
      rcases List.mem_cons.mp hx with h1 | h2
      · rw [h1]
        exact List.mem_cons_self y ys
      · exact List.mem_cons_of_mem y (ih h2)

/-- A registry where no element carries the searched id finds nothing. -/
theorem find_process_none (ps : List Process) (pid : Nat)
    (h : ∀ pr ∈ ps, (pr.id == pid) = false) :
    find_process ps pid = none := by
  induction ps with
  | nil => rfl
  | cons x rest ih =>
    rw [find_process_cons]
    rw [h x (List.mem_cons_self x rest)]
    simp only [Bool.false_eq_true, if_false]
    exact ih (fun pr hpr => h pr (List.mem_cons_of_mem x hpr))

/-- find_thread finds nothing when no process holds a thread of the id. -/
theorem find_thread_none (ps : List Process) (tid : Nat)
    (h : ∀ pr ∈ ps, ∀ x ∈ pr.threads, (x.id == tid) = false) :
    find_thread ps tid = none := by
  induction ps with
  | nil => rfl
  | cons x rest ih =>
    unfold find_thread
    have hx : x.threads.find? (fun th => th.id == tid) = none := by
      rw [List.find?_eq_none]
      intro a ha
      rw [h x (List.mem_cons_self x rest) a ha]
      exact Bool.false_ne_true
    rw [hx]
    exact ih (fun pr hpr => h pr (List.mem_cons_of_mem x hpr))

/-- pm_terminate_process on a found, not-yet-Terminated process of an
id-nodup registry reports success, unlinks the process, and leaves no thread
whose id the process was the sole host of. -/
theorem terminate_process_removes (st : PMState) (pid ec : Nat) (p0 : Process)
    (ids : List Nat)
    (hinit : st.initialized = true)
    (hfp : find_process st.processes pid = some p0)
    (hpstate : p0.state ≠ ProcessSt.terminated)
    (hnodup : (st.processes.map (fun pr => pr.id)).Nodup)
    (hout : ∀ pr ∈ st.processes, ∀ x ∈ pr.threads, x.id ∈ ids → pr.id = pid) :
    (pm_terminate_process st pid ec).1 = true ∧
    (pm_terminate_process st pid ec).2.initialized = st.initialized ∧
    find_process (pm_terminate_process st pid ec).2.processes pid = none ∧
    ∀ i ∈ ids, find_thread (pm_terminate_process st pid ec).2.processes i = none := by
  unfold pm_terminate_process
  simp only [hinit, not_true_eq_false, if_false, hfp]
  rw [if_neg hpstate]
  set stb := (if p0.entanglement_id ≠ 0
    then (pm_break_process_entanglement st p0.entanglement_id).2 else st) with hstb
  have hshb : regShape stb.processes = regShape st.processes := by
    rw [hstb]
    split
    · exact regShape_break st p0.entanglement_id
    · rfl
  have hib : stb.initialized = st.initialized := by
    rw [hstb]
    split
    · exact break_initialized st p0.entanglement_id
    · rfl
  have hidsb : stb.processes.map (fun pr => pr.id) = st.processes.map (fun pr => pr.id) :=
    ids_of_regShape _ _ hshb
  have hndb : (stb.processes.map (fun pr => pr.id)).Nodup := by
    rw [hidsb]
    exact hnodup
  have houtb : ∀ pr ∈ stb.processes, ∀ x ∈ pr.threads, x.id ∈ ids → pr.id = pid :=
    out_of_shape stb.processes st.processes ids pid hshb hout
  have hsome : (find_process stb.processes pid).isSome = true := by
    rw [find_process_isSome_of_ids stb.processes st.processes pid hidsb, hfp]
    rfl
  cases hfpb : find_process stb.processes pid with
  | none =>
    rw [hfpb] at hsome
    simp at hsome
  | some pB =>
    simp only [hfpb]
    have hpBid : pB.id = pid := find_process_id _ _ _ hfpb
    refine ⟨trivial, ?_, ?_, ?_⟩
    · rw [terminate_free_all_initialized, hib]
      exact hinit
    · rw [terminate_free_all_processes_eq]
      simp only [termP4_id, hpBid]
      show find_process (eraseFirst (fun x => x.id == pid)
        (updateFirst (fun x => x.id == pid) (fun _ => termP4 stb pB ec) stb.processes)) pid = none
      rw [eraseFirst_updateFirst _ _ _ (by simp [termP4_id, hpBid])]
      exact find_process_none _ pid (eraseFirst_id_gone stb.processes pid hndb)
    · intro i hi
      rw [terminate_free_all_processes_eq]
      simp only [termP4_id, hpBid]
      show find_thread (eraseFirst (fun x => x.id == pid)
        (updateFirst (fun x => x.id == pid) (fun _ => termP4 stb pB ec) stb.processes)) i = none
      rw [eraseFirst_updateFirst _ _ _ (by simp [termP4_id, hpBid])]
      refine find_thread_none _ i (fun pr hpr x hx => ?_)
      cases hb : (x.id == i) with
      | false => rfl
      | true =>
        exfalso
        have hxi : x.id = i := by simpa using hb
        have hprb : pr ∈ stb.processes := mem_eraseFirst _ _ _ hpr
        have hpid2 := houtb pr hprb x hx (by rw [hxi]; exact hi)
        have hff := eraseFirst_id_gone stb.processes pid hndb pr hpr
        rw [hpid2] at hff
        simp at hff

/-- C6: calling pm_terminate_thread on the only non-Terminated thread of a
registered, not-yet-Terminated process — in a well-formed registry whose
process ids are distinct and whose thread ids for this process are hosted by
no other process — terminates the whole process: the call reports success, a
subsequent pm_get_process on the process id returns none, and pm_get_thread
on each of the process's former thread ids returns none. -/
theorem C6_terminate_sole_thread (st : PMState) (tid ec pid : Nat)
    (p : Process) (th : Thread)
    (hinit : st.initialized = true)
    (hft : find_thread st.processes tid = some th)
    (hthpid : th.process_id = pid)
    (hfp : find_process st.processes pid = some p)
    (hpstate : p.state ≠ ProcessSt.terminated)
    (hthstate : th.state ≠ ThreadSt.terminated)
    (hothers : ∀ t ∈ p.threads, t.id = tid ∨ t.state = ThreadSt.terminated)
    (hnodup : (st.processes.map (fun pr => pr.id)).Nodup)
    (hout : ∀ pr ∈ st.processes, ∀ x ∈ pr.threads,
      x.id ∈ p.threads.map (fun t => t.id) → pr.id = pid) :
    (pm_terminate_thread st tid ec).1 = true ∧
    pm_get_process (pm_terminate_thread st tid ec).2 pid = none ∧
    ∀ t ∈ p.threads, pm_get_thread (pm_terminate_thread st tid ec).2 t.id = none := by
  have hpid : p.id = pid := find_process_id st.processes pid p hfp
  have hall : p.threads.all (fun t => t.id == tid || t.state == ThreadSt.terminated) = true := by
    rw [List.all_eq_true]
    intro t ht
    simp only [Bool.or_eq_true]
    rcases hothers t ht with h1 | h2
    · left
      rw [h1]
      simp
    · right
      rw [h2]
      decide
  set stA := ({ st with processes := setThread st.processes tid (fun t => { t with state := ThreadSt.terminated }) } : PMState) with hstA
  have hred : pm_terminate_thread st tid ec
      = (true, (pm_terminate_process stA p.id ec).2) := by
    rw [hstA]
    unfold pm_terminate_thread
    simp only [hinit, not_true_eq_false, if_false, hft, hthpid, hfp]
    rw [if_neg hthstate]
    simp only [hall, if_true]
  rw [hpid] at hred
  rw [hred]
  have hiA : stA.initialized = true := by
    rw [hstA]
    exact hinit
  have hshA : regShape stA.processes = regShape st.processes := by
    rw [hstA]
    exact regShape_setThread st.processes tid _ (fun t => rfl)
  have hndA : (stA.processes.map (fun pr => pr.id)).Nodup := by
    rw [ids_of_regShape _ _ hshA]
    exact hnodup
  have houtA : ∀ pr ∈ stA.processes, ∀ x ∈ pr.threads,
      x.id ∈ p.threads.map (fun t => t.id) → pr.id = pid :=
    out_of_shape stA.processes st.processes _ pid hshA hout
  have hfA0 := find_process_updateFirst
      (fun pr => pr.threads.any (fun th2 => th2.id == tid))
      (fun pr => { pr with
        threads := updateFirst (fun th2 => th2.id == tid)
          (fun t => { t with state := ThreadSt.terminated }) pr.threads })
      (fun x => rfl) st.processes pid p hfp
  have hfA : find_process stA.processes pid = some p ∨
      find_process stA.processes pid
        = some { p with
            threads := updateFirst (fun th2 => th2.id == tid)
              (fun t => { t with state := ThreadSt.terminated }) p.threads } := by
    rw [hstA]
    exact hfA0
  have hmain : (pm_terminate_process stA pid ec).1 = true ∧
      (pm_terminate_process stA pid ec).2.initialized = stA.initialized ∧
      find_process (pm_terminate_process stA pid ec).2.processes pid = none ∧
      ∀ i ∈ p.threads.map (fun t => t.id),
        find_thread (pm_terminate_process stA pid ec).2.processes i = none := by
    rcases hfA with hfA | hfA
    · exact terminate_process_removes stA pid ec p _ hiA hfA hpstate hndA houtA
    · exact terminate_process_removes stA pid ec _ _ hiA hfA hpstate hndA houtA
  refine ⟨rfl, ?_, ?_⟩
  · show pm_get_process (pm_terminate_process stA pid ec).2 pid = none
    unfold pm_get_process
    rw [if_neg (not_not_intro (show (pm_terminate_process stA pid ec).2.initialized = true by
      rw [hmain.2.1]; exact hiA))]
    exact hmain.2.2.1
  · intro t ht
    show pm_get_thread (pm_terminate_process stA pid ec).2 t.id = none
    unfold pm_get_thread
    rw [if_neg (not_not_intro (show (pm_terminate_process stA pid ec).2.initialized = true by
      rw [hmain.2.1]; exact hiA))]
    exact hmain.2.2.2 t.id (List.mem_map.mpr ⟨t, ht, rfl⟩)

/-- Witness: in the concrete registry pmA (process 1 holding exactly the
ready thread 1), terminating thread 1 removes process 1 and all its thread
ids from the registry. -/
theorem C6_terminate_sole_thread_witness :
    (pm_terminate_thread pmA 1 0).1 = true ∧
    pm_get_process (pm_terminate_thread pmA 1 0).2 1 = none ∧
    ∀ t ∈ prA.threads, pm_get_thread (pm_terminate_thread pmA 1 0).2 t.id = none :=
  C6_terminate_sole_thread pmA 1 0 1 prA thA (by decide) (by decide) (by decide)
    (by decide) (by decide) (by decide) (by decide) (by decide) (by decide)

end Ctrlxt
